import Mathlib

/-
  Verification development for the Fulcrum job-calendar feed server
  (src/server.js).  The JavaScript source is shallowly embedded below:
  optional / falsy-capable string fields become `Option String`,
  `new Date(x).getTime()` becomes `Option Int` (with `none` playing the
  role of `NaN`), and the operation-selection, event-mapping,
  iCalendar-serialization, line-folding and cache logic are transcribed
  function by function.  Strings are modelled as sequences of Unicode
  code points (Lean `String` / `List Char`).
-/

set_option maxRecDepth 10000

/- ===== JavaScript value semantics ===== -/

/-- Truthiness of an optional string: `undefined`/`null` and `""` are falsy. -/
def sTruthy : Option String → Bool
  | none => false
  | some s => !s.isEmpty

/-- `a || b` on optional strings. -/
def jsOrS (a b : Option String) : Option String :=
  if sTruthy a then a else b

/-- `x || ""` collapsing an optional string to a plain string. -/
def orEmpty : Option String → String
  | none => ""
  | some s => s

/-- Truthiness of a JS number: `NaN` (modelled `none`) and `0` are falsy. -/
def numTruthy : Option Int → Bool
  | none => false
  | some n => n != 0

/-- `a < b` on JS numbers; any comparison involving `NaN` is false. -/
def oLt (a b : Option Int) : Bool :=
  match a, b with
  | some x, some y => decide (x < y)
  | _, _ => false

/-- `a <= b` on JS numbers; any comparison involving `NaN` is false. -/
def oLe (a b : Option Int) : Bool :=
  match a, b with
  | some x, some y => decide (x ≤ y)
  | _, _ => false

/-- `a > b` on JS numbers. -/
def oGt (a b : Option Int) : Bool := oLt b a

/-- `a >= b` on JS numbers. -/
def oGe (a b : Option Int) : Bool := oLe b a

/-- Template-literal rendering of a possibly-undefined string. -/
def templS : Option String → String
  | none => "undefined"
  | some s => s

/- ===== UTC date arithmetic (proleptic Gregorian, as used by JS Date) ===== -/

def isLeapYear (y : Int) : Bool :=
  (y % 4 == 0 && y % 100 != 0) || y % 400 == 0

def daysInMonth (y m : Int) : Int :=
  if m == 2 then (if isLeapYear y then 29 else 28)
  else if m == 4 || m == 6 || m == 9 || m == 11 then 30
  else 31

/-- Days from 1970-01-01 to the given civil date (Howard Hinnant's algorithm). -/
def daysFromCivil (y m d : Int) : Int :=
  let y' := if m ≤ 2 then y - 1 else y
  let era := (if y' ≥ 0 then y' else y' - 399) / 400
  let yoe := y' - era * 400
  let mp := (m + 9) % 12
  let doy := (153 * mp + 2) / 5 + d - 1
  let doe := yoe * 365 + yoe / 4 - yoe / 100 + doy
  era * 146097 + doe - 719468

/-- Civil date from days since 1970-01-01 (inverse of `daysFromCivil`). -/
def civilFromDays (z0 : Int) : Int × Int × Int :=
  let z := z0 + 719468
  let era := (if z ≥ 0 then z else z - 146096) / 146097
  let doe := z - era * 146097
  let yoe := (doe - doe / 1460 + doe / 36524 - doe / 146096) / 365
  let y := yoe + era * 400
  let doy := doe - (365 * yoe + yoe / 4 - yoe / 100)
  let mp := (5 * doy + 2) / 153
  let d := doy - (153 * mp + 2) / 5 + 1
  let m := mp + (if mp < 10 then 3 else -9)
  (if m ≤ 2 then y + 1 else y, m, d)

def pad2 (n : Int) : String :=
  if n < 10 then "0" ++ toString n else toString n

def pad3 (n : Int) : String :=
  if n < 10 then "00" ++ toString n
  else if n < 100 then "0" ++ toString n
  else toString n

/-- `toUTC` from server.js applied to a (valid) millisecond timestamp:
`YYYYMMDDTHHMMSSZ`. -/
def toUTCms (ms : Int) : String :=
  let day := ms.ediv 86400000
  let tod := ms.emod 86400000
  let c := civilFromDays day
  toString c.1 ++ pad2 c.2.1 ++ pad2 c.2.2 ++ "T" ++
    pad2 (tod / 3600000) ++ pad2 ((tod / 60000) % 60) ++ pad2 ((tod / 1000) % 60) ++ "Z"

/-- `yyyymmdd` from server.js applied to a valid millisecond timestamp. -/
def yyyymmddMs (ms : Int) : String :=
  let day := ms.ediv 86400000
  let c := civilFromDays day
  toString c.1 ++ pad2 c.2.1 ++ pad2 c.2.2

/-- `Date.prototype.toISOString` for a valid millisecond timestamp. -/
def toISOString (ms : Int) : String :=
  let day := ms.ediv 86400000
  let tod := ms.emod 86400000
  let c := civilFromDays day
  toString c.1 ++ "-" ++ pad2 c.2.1 ++ "-" ++ pad2 c.2.2 ++ "T" ++
    pad2 (tod / 3600000) ++ ":" ++ pad2 ((tod / 60000) % 60) ++ ":" ++
    pad2 ((tod / 1000) % 60) ++ "." ++ pad3 (tod % 1000) ++ "Z"

/- ===== Parsing of the upstream ISO-8601 UTC timestamp strings
   (the ECMA-262 Date Time String Format subset this feed receives:
   `YYYY-MM-DD`, optionally `THH:MM:SS` and `.sss`, suffix `Z`).
   Anything else parses to `none` (JS `NaN`). ===== -/

def digitVal (c : Char) : Option Int :=
  if c.isDigit then some ((c.toNat : Int) - 48) else none

def dig2 (a b : Char) : Option Int := do
  let x ← digitVal a
  let y ← digitVal b
  pure (10 * x + y)

def dig3 (a b c : Char) : Option Int := do
  let x ← digitVal a
  let y ← dig2 b c
  pure (100 * x + y)

def dig4 (a b c d : Char) : Option Int := do
  let x ← dig2 a b
  let y ← dig2 c d
  pure (100 * x + y)

def utcMsOf (y mo d h mi s ms : Int) : Int :=
  daysFromCivil y mo d * 86400000 + h * 3600000 + mi * 60000 + s * 1000 + ms

/-- Parse the time-and-millisecond tail after `YYYY-MM-DDT`. -/
def parseTimeTail (l : List Char) : Option Int :=
  match l with
  | [h1, h2, ':', mi1, mi2, ':', s1, s2, 'Z'] => do
    let h ← dig2 h1 h2
    let mi ← dig2 mi1 mi2
    let s ← dig2 s1 s2
    guard (h ≤ 23 ∧ mi ≤ 59 ∧ s ≤ 59)
    pure (h * 3600000 + mi * 60000 + s * 1000)
  | [h1, h2, ':', mi1, mi2, ':', s1, s2, '.', a, b, c, 'Z'] => do
    let h ← dig2 h1 h2
    let mi ← dig2 mi1 mi2
    let s ← dig2 s1 s2
    let f ← dig3 a b c
    guard (h ≤ 23 ∧ mi ≤ 59 ∧ s ≤ 59)
    pure (h * 3600000 + mi * 60000 + s * 1000 + f)
  | _ => none

def parseIsoChars (l : List Char) : Option Int :=
  match l with
  | y1 :: y2 :: y3 :: y4 :: '-' :: mo1 :: mo2 :: '-' :: d1 :: d2 :: rest => do
    let y ← dig4 y1 y2 y3 y4
    let mo ← dig2 mo1 mo2
    let d ← dig2 d1 d2
    guard (1 ≤ mo ∧ mo ≤ 12 ∧ 1 ≤ d ∧ d ≤ daysInMonth y mo)
    let date := daysFromCivil y mo d * 86400000
    match rest with
    | [] => pure date
    | 'T' :: tail => do
      let t ← parseTimeTail tail
      pure (date + t)
    | _ => none
  | _ => none

/-- `new Date(s).getTime()` for a string input; `none` models `NaN`. -/
def parseIsoUtc (s : String) : Option Int := parseIsoChars s.data

/-- `new Date(v).getTime()` for a possibly-undefined string input. -/
def jsDateMs : Option String → Option Int
  | none => none
  | some s => parseIsoUtc s

/-- `toUTC` from server.js on the string it is actually given
(an invalid date renders all-`NaN` components). -/
def toUTCjs (v : Option String) : String :=
  match jsDateMs v with
  | some ms => toUTCms ms
  | none => "NaNNaNNaNTNaNNaNNaNZ"

/-- `yyyymmdd` from server.js on a date-like string. -/
def yyyymmddJs (v : Option String) : String :=
  match jsDateMs v with
  | some ms => yyyymmddMs ms
  | none => "NaNNaNNaN"

/-- `addDaysISO` from server.js: add `n` UTC days and re-serialize with
`toISOString`.  `none` models the `RangeError` thrown by `toISOString`
on an invalid date. -/
def addDaysJs (v : Option String) (n : Int) : Option String :=
  (jsDateMs v).map (fun ms => toISOString (ms + n * 86400000))

/-- `toMs` from the /calendar.ics route: `d ? new Date(d).getTime() : NaN`. -/
def toMsJs (v : Option String) : Option Int :=
  if sTruthy v then jsDateMs v else none

example : parseIsoUtc "2024-06-01T10:00:00Z" = some 1717236000000 := by decide
example : parseIsoUtc "1970-01-01T00:00:00Z" = some 0 := by decide
example : parseIsoUtc "2024-06-01" = some 1717200000000 := by decide
example : parseIsoUtc "garbage" = none := by decide
example : toUTCms 1717236000000 = "20240601T100000Z" := by decide
example : toISOString 1717236000000 = "2024-06-01T10:00:00.000Z" := by decide
example : yyyymmddMs 1717236000000 = "20240601" := by decide
example : toUTCms 61000 = "19700101T000101Z" := by decide

/- ===== Data model (fields actually read by server.js) ===== -/

structure Operation where
  id : Option String := none
  name : Option String := none
  scheduledEquipmentName : Option String := none
  scheduledStartUtc : Option String := none
  originalScheduledStartUtc : Option String := none
  scheduledEndUtc : Option String := none
  originalScheduledEndUtc : Option String := none
deriving DecidableEq

structure Job where
  id : Option String := none
  name : Option String := none
  number : Option Int := none
  status : Option String := none
  salesOrderId : Option String := none
  scheduledStartUtc : Option String := none
  originalScheduledStartUtc : Option String := none
  scheduledEndUtc : Option String := none
  originalScheduledEndUtc : Option String := none
  productionDueDate : Option String := none
deriving DecidableEq

structure ItemRef where
  name : Option String := none
  number : Option String := none
  description : Option String := none
deriving DecidableEq

structure ItemToMake where
  itemReference : Option ItemRef := none
  quantityToMake : Option Int := none
deriving DecidableEq

structure CalendarEvent where
  id : Option String
  start : Option String
  end_ : Option String
  summary : String
  location : String
  description : String
  categories : List String
deriving DecidableEq

/-- Optional chaining `op?.field` for an optional operation. -/
def opFieldS (op : Option Operation) (f : Operation → Option String) : Option String :=
  match op with
  | none => none
  | some o => f o

/- ===== Operation Selector (pickPrimaryOperation) ===== -/

/-- Stable insertion: place `x` before the first `y` with `le x y`
(this is the unique stable order for a consistent comparator, matching
`Array.prototype.sort`). -/
def stInsert (le : α → α → Bool) (x : α) : List α → List α
  | [] => [x]
  | y :: ys => if le x y then x :: y :: ys else y :: stInsert le x ys

/-- Stable sort used to model `Array.prototype.sort(comparator)`. -/
def jsSort (le : α → α → Bool) : List α → List α
  | [] => []
  | x :: xs => stInsert le x (jsSort le xs)

/-- `o.scheduledStartUtc || o.originalScheduledStartUtc` (sort key source). -/
def opStartRaw (o : Operation) : Option String :=
  jsOrS o.scheduledStartUtc o.originalScheduledStartUtc

/-- Millisecond sort key `new Date(o.scheduledStartUtc || o.originalScheduledStartUtc)`. -/
def opKeyMs (o : Operation) : Option Int := jsDateMs (opStartRaw o)

/-- Comparator `(a, b) => new Date(aStart) - new Date(bStart)` as a `≤`-test:
a `NaN` difference is treated as 0 (ties), as `Array.prototype.sort` does. -/
def opLeKey (a b : Operation) : Bool :=
  match opKeyMs a, opKeyMs b with
  | some x, some y => decide (x ≤ y)
  | _, _ => true

/-- Candidate list of `pickPrimaryOperation`: operations with some start,
sorted ascending by effective start. -/
def sortCandidates (ops : List Operation) : List Operation :=
  jsSort opLeKey (ops.filter (fun o => sTruthy o.scheduledStartUtc || sTruthy o.originalScheduledStartUtc))

/-- `jStart` of `pickPrimaryOperation`:
`new Date(job.scheduledStartUtc || job.originalScheduledStartUtc || job.productionDueDate || 0).getTime()`. -/
def jStartMs (job : Job) : Option Int :=
  let v := jsOrS job.scheduledStartUtc (jsOrS job.originalScheduledStartUtc job.productionDueDate)
  if sTruthy v then jsDateMs v else some 0

/-- `jEnd` of `pickPrimaryOperation`:
`new Date(job.scheduledEndUtc || job.originalScheduledEndUtc || 0).getTime()`. -/
def jEndMs (job : Job) : Option Int :=
  let v := jsOrS job.scheduledEndUtc job.originalScheduledEndUtc
  if sTruthy v then jsDateMs v else some 0

/-- `oe` inside the overlap test:
`new Date(o.scheduledEndUtc || o.originalScheduledEndUtc || os).getTime()`. -/
def opEndKeyMs (o : Operation) (os : Option Int) : Option Int :=
  let es := jsOrS o.scheduledEndUtc o.originalScheduledEndUtc
  if sTruthy es then jsDateMs es else os

/-- `pickPrimaryOperation(job, ops)` from server.js. -/
def pickPrimaryOperation (job : Job) (ops : List Operation) : Option Operation :=
  if ops.isEmpty then none
  else
    let jStart := jStartMs job
    let jEnd := jEndMs job
    let candidates := sortCandidates ops
    match candidates with
    | [] => none
    | c0 :: _ =>
      if numTruthy jStart then
        let overlapping := candidates.find? (fun o =>
          let os := opKeyMs o
          let oe := opEndKeyMs o os
          if numTruthy jEnd then oLe os jEnd && oGe oe jStart else oGe os jStart)
        match overlapping with
        | some o => some o
        | none => some c0
      else some c0

/- ===== Event Mapper (mapJobToEvent) ===== -/

/-- `job.scheduledStartUtc || job.originalScheduledStartUtc || job.productionDueDate`. -/
def jobEffStart (j : Job) : Option String :=
  jsOrS j.scheduledStartUtc (jsOrS j.originalScheduledStartUtc j.productionDueDate)

/-- `job.scheduledEndUtc || job.originalScheduledEndUtc`. -/
def jobEffEnd (j : Job) : Option String :=
  jsOrS j.scheduledEndUtc j.originalScheduledEndUtc

/-- `primaryOp?.scheduledStartUtc || primaryOp?.originalScheduledStartUtc`. -/
def opEffStartOpt (op : Option Operation) : Option String :=
  jsOrS (opFieldS op (fun o => o.scheduledStartUtc)) (opFieldS op (fun o => o.originalScheduledStartUtc))

/-- `primaryOp?.scheduledEndUtc || primaryOp?.originalScheduledEndUtc`. -/
def opEffEndOpt (op : Option Operation) : Option String :=
  jsOrS (opFieldS op (fun o => o.scheduledEndUtc)) (opFieldS op (fun o => o.originalScheduledEndUtc))

/-- `mapJobToEvent(job, primaryOp, itemToMake)` from server.js (the
current revision: job window preferred for event timing). -/
def mapJobToEvent (job : Job) (primaryOp : Option Operation) (itemToMake : Option ItemToMake) : CalendarEvent :=
  let jobStart := jobEffStart job
  let jobEnd := jobEffEnd job
  let opStart := opEffStartOpt primaryOp
  let opEnd := opEffEndOpt primaryOp
  let start := jsOrS jobStart opStart
  let end0 := jsOrS jobEnd (jsOrS opEnd start)
  let end1 := if !sTruthy end0 && sTruthy start then addDaysJs start 1 else end0
  let title :=
    match job.name with
    | some s =>
      if !s.isEmpty then s
      else match job.number with
        | some n => "Job #" ++ toString n
        | none => "Scheduled Work"
    | none =>
      match job.number with
      | some n => "Job #" ++ toString n
      | none => "Scheduled Work"
  let number :=
    match job.number with
    | some n => "#" ++ toString n
    | none => ""
  let status := orEmpty job.status
  let project := orEmpty job.salesOrderId
  let equipment := orEmpty (opFieldS primaryOp (fun o => o.scheduledEquipmentName))
  let opName := orEmpty (opFieldS primaryOp (fun o => o.name))
  let iref : Option ItemRef :=
    match itemToMake with
    | some it => it.itemReference
    | none => none
  let irefS (f : ItemRef → Option String) : Option String :=
    match iref with
    | none => none
    | some r => f r
  let itemName := orEmpty (jsOrS (irefS (fun r => r.name)) (irefS (fun r => r.number)))
  let itemDesc := orEmpty (irefS (fun r => r.description))
  let qtyMake :=
    match itemToMake with
    | some it =>
      match it.quantityToMake with
      | some q => "Qty: " ++ toString q
      | none => ""
    | none => ""
  let summary := String.intercalate " "
    (([title, number, if !opName.isEmpty then "(" ++ opName ++ ")" else ""]).filter (fun s => !s.isEmpty))
  let location := equipment
  let descLines := ([
    if !status.isEmpty then some ("Status: " ++ status) else none,
    if !project.isEmpty then some ("Sales Order: " ++ project) else none,
    if !equipment.isEmpty then some ("Equipment: " ++ equipment) else none,
    if !opName.isEmpty then some ("Operation: " ++ opName) else none,
    if !itemName.isEmpty then some ("Item: " ++ itemName) else none,
    if !itemDesc.isEmpty then some ("Desc: " ++ itemDesc) else none,
    if !qtyMake.isEmpty then some qtyMake else none,
    if sTruthy job.id then some ("Job ID: " ++ orEmpty job.id) else none
  ]).reduceOption
  let categories := ([equipment, opName, status]).filter (fun s => !s.isEmpty)
  { id := job.id
    start := start
    end_ := end1
    summary := summary
    location := location
    description := String.intercalate "\\n" descLines
    categories := categories }

example :
    (mapJobToEvent { scheduledStartUtc := some "2024-06-01T10:00:00Z" } none none).end_
      = some "2024-06-01T10:00:00Z" := by decide

example :
    (mapJobToEvent
      { id := some "J1", number := some 7,
        scheduledStartUtc := some "2024-06-01T10:00:00Z",
        scheduledEndUtc := some "2024-06-01T11:00:00Z",
        status := some "scheduled" } none none).summary = "Job #7 #7" := by decide

/- ===== Calendar Serializer ===== -/

/-- `icsEscape`: backslash-escape commas and semicolons, literal newline
becomes the two-character sequence backslash-n. -/
def icsEscapeChar (c : Char) : List Char :=
  if c = ',' || c = ';' then ['\\', c]
  else if c = '\n' then ['\\', 'n']
  else [c]

def icsEscape (s : String) : String :=
  String.mk (s.data.map icsEscapeChar).flatten

def crlf : String := "\r\n"

/-- The VEVENT line array of `veventTimed` (before `.filter(Boolean).join`). -/
def veventTimedLines (uid : String) (start end_ : Option String)
    (summary location description : String) (categories : List String)
    (nowMs : Int) : List String :=
  ([some "BEGIN:VEVENT",
    some ("UID:" ++ uid),
    some ("DTSTAMP:" ++ toUTCms nowMs),
    some ("DTSTART:" ++ toUTCjs start),
    some ("DTEND:" ++ toUTCjs (jsOrS end_ start)),
    some ("SUMMARY:" ++ icsEscape (if summary.isEmpty then "Scheduled Work" else summary)),
    (if location.isEmpty then none else some ("LOCATION:" ++ icsEscape location)),
    (if description.isEmpty then none else some ("DESCRIPTION:" ++ icsEscape description)),
    (if categories.isEmpty then none
     else some ("CATEGORIES:" ++ String.intercalate "," (categories.map icsEscape))),
    some "END:VEVENT"]).reduceOption

/-- `veventTimed` from server.js. -/
def veventTimed (uid : String) (start end_ : Option String)
    (summary location description : String) (categories : List String)
    (nowMs : Int) : String :=
  String.intercalate crlf (veventTimedLines uid start end_ summary location description categories nowMs)

/-- `veventAllDay` from server.js; `none` models the `RangeError` thrown by
`addDaysISO` (via `toISOString`) when the inclusive end date is invalid. -/
def veventAllDay (uid : String) (startDate endDateInclusive : Option String)
    (summary location description : String) (categories : List String)
    (nowMs : Int) : Option String :=
  match addDaysJs endDateInclusive 1 with
  | none => none
  | some endIso =>
    some (String.intercalate crlf (([some "BEGIN:VEVENT",
      some ("UID:" ++ uid),
      some ("DTSTAMP:" ++ toUTCms nowMs),
      some ("DTSTART;VALUE=DATE:" ++ yyyymmddJs startDate),
      some ("DTEND;VALUE=DATE:" ++ yyyymmddJs (some endIso)),
      some ("SUMMARY:" ++ icsEscape (if summary.isEmpty then "Scheduled Work" else summary)),
      (if location.isEmpty then none else some ("LOCATION:" ++ icsEscape location)),
      (if description.isEmpty then none else some ("DESCRIPTION:" ++ icsEscape description)),
      (if categories.isEmpty then none
       else some ("CATEGORIES:" ++ String.intercalate "," (categories.map icsEscape))),
      some "END:VEVENT"]).reduceOption))

/- ===== RFC 5545 line folding (foldLines / finalizeIcs) =====

A JavaScript string is a sequence of UTF-16 code units: `cur.slice(0, cut)`
counts units while `Buffer.byteLength(cur, "utf8")` counts the octets of
the UTF-8 encoding (a lone surrogate encodes as U+FFFD, three octets).
The faithful model of `foldLines` therefore works on code-unit lists
(`foldLinesU` below).  The functions on `List Char` here are the same
algorithm specialized to text whose characters all lie in the Basic
Multilingual Plane, where one code point is exactly one code unit; the
correspondence is proved below (`foldLinesU_encU`).  The render pipeline
(`finalizeIcs`) uses the code-point form, as the documents it assembles
are BMP text. -/

/-- UTF-8 octet length of a code-point list: `Buffer.byteLength(s, "utf8")`
for BMP text (each code point is one code unit). -/
def utf8Len (l : List Char) : Nat := (l.map (fun c => c.utf8Size)).sum

/-- The inner `while (cut > 0 && byteLength(cur.slice(0, cut)) > 75) cut--`
loop for BMP text, where unit positions and code-point positions agree:
largest `cut ≤ n` whose prefix fits in 75 octets.  The general code-unit
form is `findCutU`. -/
def findCut (l : List Char) : Nat → Nat
  | 0 => 0
  | n + 1 => if utf8Len (l.take (n + 1)) > 75 then findCut l n else n + 1

/-- One logical line folded into physical pieces (the `while byteLength > 75`
loop of `foldLines`), BMP form; `fuel ≥ cur.length` suffices. -/
def foldOneAux : Nat → List Char → List (List Char)
  | 0, cur => [cur]
  | fuel + 1, cur =>
    if utf8Len cur > 75 then
      let c := findCut cur 75
      cur.take c :: foldOneAux fuel (' ' :: cur.drop c)
    else [cur]

def foldOne (l : List Char) : List (List Char) := foldOneAux l.length l

/-- `text.split("\r\n")` on code points; `fuel ≥ l.length` suffices. -/
def splitCRLFAux : Nat → List Char → List (List Char)
  | 0, l => [l]
  | _ + 1, [] => [[]]
  | fuel + 1, c :: rest =>
    if (c :: rest).take 2 = ['\r', '\n'] then
      [] :: splitCRLFAux fuel rest.tail
    else
      match splitCRLFAux fuel rest with
      | s :: ss => (c :: s) :: ss
      | [] => [[c]]

def splitCRLF (l : List Char) : List (List Char) := splitCRLFAux l.length l

/-- `lines.join("\r\n")` on code points. -/
def joinCRLF : List (List Char) → List Char
  | [] => []
  | [p] => p
  | p :: q :: ps => p ++ '\r' :: '\n' :: joinCRLF (q :: ps)

/-- `foldLines` from server.js, BMP form (one code point = one UTF-16
unit); the faithful general form is `foldLinesU` below. -/
def foldLinesL (l : List Char) : List Char :=
  joinCRLF ((splitCRLF l).map foldOne).flatten

/-- Whether a CRLF pair occurs somewhere in the list. -/
def hasCRLF : List Char → Bool
  | [] => false
  | c :: rest => decide ((c :: rest).take 2 = ['\r', '\n']) || hasCRLF rest

/-- `finalizeIcs` from server.js on code points: ensure trailing CRLF, fold. -/
def finalizeIcsL (l : List Char) : List Char :=
  foldLinesL (if ['\r', '\n'].isSuffixOf l then l else l ++ ['\r', '\n'])

/-- `finalizeIcs` on strings. -/
def finalizeIcs (s : String) : String := String.mk (finalizeIcsL s.data)

/-- Unfolding per RFC 5545: delete every CRLF-plus-space break;
`fuel ≥ l.length` suffices. -/
def unfoldAux : Nat → List Char → List Char
  | 0, l => l
  | _ + 1, [] => []
  | fuel + 1, c :: rest =>
    if (c :: rest).take 3 = ['\r', '\n', ' '] then unfoldAux fuel (rest.drop 2)
    else c :: unfoldAux fuel rest

def unfoldIcs (l : List Char) : List Char := unfoldAux l.length l

example : splitCRLF ("ab\r\ncd".data) = ["ab".data, "cd".data] := by decide
example : joinCRLF (splitCRLF ("a\r\r\nb\r\n".data)) = "a\r\r\nb\r\n".data := by decide
example : foldLinesL ("short line".data) = "short line".data := by decide
example : unfoldIcs ("ab\r\n cd".data) = "abcd".data := by decide
example :
    foldLinesL (String.data ("AAAAAAAAAAAAAAAAAAAAAAAAAAAAAAAAAAAAAAAABBBBBBBBBBBBBBBBBBBBBBBBBBBBBBBBBBBBBBBB"))
      = String.data ("AAAAAAAAAAAAAAAAAAAAAAAAAAAAAAAAAAAAAAAABBBBBBBBBBBBBBBBBBBBBBBBBBBBBBBBBBB\r\n BBBBB") := by decide

/- ===== foldLines on UTF-16 code units (the faithful model) =====

A JS string is a `List Nat` of 16-bit code units; `slice` indexes units.
`Buffer.byteLength(s, "utf8")` counts 4 octets for a surrogate pair and
encodes a LONE surrogate as U+FFFD (3 octets), so a `slice` boundary can
fall between the two halves of a pair. -/

/-- High-surrogate test (0xD800-0xDBFF). -/
def u16IsHigh (u : Nat) : Bool := 55296 ≤ u && u ≤ 56319

/-- Low-surrogate test (0xDC00-0xDFFF). -/
def u16IsLow (u : Nat) : Bool := 56320 ≤ u && u ≤ 57343

/-- UTF-8 octet count of a single unit encoded alone (a lone surrogate
becomes U+FFFD: 3 octets). -/
def u8size1 (u : Nat) : Nat :=
  if u < 128 then 1 else if u < 2048 then 2 else 3

/-- `Buffer.byteLength(s, "utf8")` over a UTF-16 code-unit sequence. -/
def utf8LenU : List Nat → Nat
  | [] => 0
  | [u] => u8size1 u
  | u :: v :: rest =>
    if u16IsHigh u && u16IsLow v then 4 + utf8LenU rest
    else u8size1 u + utf8LenU (v :: rest)

/-- The `cut--` loop of `foldLines` over code units: largest `cut ≤ n`
(in UTF-16 units) whose prefix fits in 75 octets. -/
def findCutU (l : List Nat) : Nat → Nat
  | 0 => 0
  | n + 1 => if utf8LenU (l.take (n + 1)) > 75 then findCutU l n else n + 1

/-- One logical line folded into physical pieces over code units
(32 is the space prepended to continuations); `fuel ≥ cur.length`
suffices. -/
def foldOneAuxU : Nat → List Nat → List (List Nat)
  | 0, cur => [cur]
  | fuel + 1, cur =>
    if utf8LenU cur > 75 then
      let c := findCutU cur 75
      cur.take c :: foldOneAuxU fuel (32 :: cur.drop c)
    else [cur]

def foldOneU (l : List Nat) : List (List Nat) := foldOneAuxU l.length l

/-- `text.split("\r\n")` over code units (13 = CR, 10 = LF). -/
def splitCRLFAuxU : Nat → List Nat → List (List Nat)
  | 0, l => [l]
  | _ + 1, [] => [[]]
  | fuel + 1, u :: rest =>
    if (u :: rest).take 2 = [13, 10] then
      [] :: splitCRLFAuxU fuel rest.tail
    else
      match splitCRLFAuxU fuel rest with
      | s :: ss => (u :: s) :: ss
      | [] => [[u]]

def splitCRLFU (l : List Nat) : List (List Nat) := splitCRLFAuxU l.length l

/-- `lines.join("\r\n")` over code units. -/
def joinCRLFU : List (List Nat) → List Nat
  | [] => []
  | [p] => p
  | p :: q :: ps => p ++ 13 :: 10 :: joinCRLFU (q :: ps)

/-- `foldLines` from server.js over UTF-16 code units — the faithful
model of the JavaScript function. -/
def foldLinesU (l : List Nat) : List Nat :=
  joinCRLFU ((splitCRLFU l).map foldOneU).flatten

/-- Unfolding (delete every CRLF-plus-space break) over code units. -/
def unfoldAuxU : Nat → List Nat → List Nat
  | 0, l => l
  | _ + 1, [] => []
  | fuel + 1, u :: rest =>
    if (u :: rest).take 3 = [13, 10, 32] then unfoldAuxU fuel (rest.drop 2)
    else u :: unfoldAuxU fuel rest

def unfoldIcsU (l : List Nat) : List Nat := unfoldAuxU l.length l

/-- The BMP embedding of a code-point string into code units: every
character below 0x10000 is a single unit equal to its scalar value. -/
def encU (l : List Char) : List Nat := l.map Char.toNat

example : utf8LenU (encU "héllo".data) = 6 := by decide
example : utf8LenU [55357, 56832] = 4 := by decide
example : utf8LenU [55357] = 3 := by decide

/- ===== Enrichment entries and primary pairs ===== -/

/-- One element of an operation-listing response: either a wrapper
`{ operation, itemToMake }` or a bare operation (`o.operation || o`). -/
inductive OpsEntry where
  | wrapped (operation : Operation) (itemToMake : Option ItemToMake)
  | bare (operation : Operation)
deriving DecidableEq

def entryOp : OpsEntry → Operation
  | .wrapped o _ => o
  | .bare o => o

def entryItm : OpsEntry → Option ItemToMake
  | .wrapped _ i => i
  | .bare _ => none

/-- The `{ op, itm }` pair stored in `primaryOpByJob`. -/
structure OpPair where
  op : Operation
  itm : Option ItemToMake
deriving DecidableEq

/-- Lines 324-334 of server.js: normalize entries, pick the primary
operation, and find its pair. -/
def mkPair (job : Job) (arr : List OpsEntry) : Option OpPair :=
  let pairs := arr.map (fun o => OpPair.mk (entryOp o) (entryItm o))
  match pickPrimaryOperation job (pairs.map (fun p => p.op)) with
  | some primary =>
    match pairs.find? (fun p => p.op.id = primary.id) with
    | some p => some p
    | none => some (OpPair.mk primary none)
  | none => none

/-- The body of `worker` for one job (lines 312-334): consult the cache,
otherwise the fetch result; a fetch failure is caught and recorded as a
null pair. -/
def workerStep (cached : Option (List OpsEntry))
    (fetched : Except String (List OpsEntry)) (job : Job) : Option OpPair :=
  let arr : Option (List OpsEntry) :=
    match cached with
    | some a => some a
    | none =>
      match fetched with
      | .ok a => some a
      | .error _ => none
  match arr with
  | some a => mkPair job a
  | none => none

/- ===== Window filter and event list (route lines 343-376) ===== -/

/-- The `filteredJobs` predicate: inclusion by op-first/job-fallback
schedule window. -/
def jobIncluded (pair : Option OpPair) (j : Job) (winStart winEnd : Option Int) : Bool :=
  let op := pair.map (fun p => p.op)
  let start := jsOrS (opFieldS op (fun o => o.scheduledStartUtc))
    (jsOrS (opFieldS op (fun o => o.originalScheduledStartUtc))
      (jsOrS j.scheduledStartUtc (jsOrS j.originalScheduledStartUtc j.productionDueDate)))
  let end_ := jsOrS (opFieldS op (fun o => o.scheduledEndUtc))
    (jsOrS (opFieldS op (fun o => o.originalScheduledEndUtc))
      (jsOrS j.scheduledEndUtc (jsOrS j.originalScheduledEndUtc start)))
  if !sTruthy start then false
  else
    let s := toMsJs start
    let e := let e0 := toMsJs end_; if numTruthy e0 then e0 else s
    if numTruthy winStart && oLt e winStart then false
    else if numTruthy winEnd && oGt s winEnd then false
    else true

/-- `filteredJobs.map(mapJobToEvent ...)` with `primaryOpByJob` modelled as a
function (`pair?.op || null`, `pair?.itm || null`). -/
def buildEvents (jobs : List Job) (pm : Job → Option OpPair)
    (winStart winEnd : Option Int) : List CalendarEvent :=
  (jobs.filter (fun j => jobIncluded (pm j) j winStart winEnd)).map (fun j =>
    let pair := pm j
    mapJobToEvent j (pair.map (fun p => p.op)) (pair.bind (fun p => p.itm)))

/- ===== Process-wide Map caches (insertion-ordered association lists) ===== -/

def mapLookup [DecidableEq κ] (m : List (κ × α)) (k : κ) : Option α :=
  (m.find? (fun p => p.1 = k)).map (fun p => p.2)

/-- `Map.prototype.set`: overwrite in place, else append. -/
def mapSet [DecidableEq κ] : List (κ × α) → κ → α → List (κ × α)
  | [], k, v => [(k, v)]
  | (k0, v0) :: rest, k, v =>
    if k0 = k then (k, v) :: rest else (k0, v0) :: mapSet rest k v

/-- `Map.prototype.delete`: remove the entry with the given key. -/
def mapDelete [DecidableEq κ] : List (κ × α) → κ → List (κ × α)
  | [], _ => []
  | (k0, v0) :: rest, k =>
    if k0 = k then rest else (k0, v0) :: mapDelete rest k

/-- Operation-cache entry `{ at, data }`. -/
structure OpsCacheEntry where
  atMs : Int
  data : List OpsEntry
deriving DecidableEq

/-- Comparator `(a, b) => a[1].at - b[1].at` as a `≤`-test. -/
def opsEntryLe (a b : String × OpsCacheEntry) : Bool :=
  decide (a.2.atMs ≤ b.2.atMs)

/-- `cachePutOps` from server.js: insert, then if the size exceeds 500
evict the entry with the oldest insertion time. -/
def cachePutOps (m : List (String × OpsCacheEntry)) (jobId : String)
    (data : List OpsEntry) (nowMs : Int) : List (String × OpsCacheEntry) :=
  let m1 := mapSet m jobId (OpsCacheEntry.mk nowMs data)
  if m1.length > 500 then
    match jsSort opsEntryLe m1 with
    | [] => m1
    | oldest :: _ => mapDelete m1 oldest.1
  else m1

/- ===== Response cache and the /calendar.ics route ===== -/

structure CacheEntry where
  atMs : Int
  body : String
  etag : String
deriving DecidableEq

inductive HttpResponse where
  | ok (body : String) (etag : String)
  | notModified
  | serverError
deriving DecidableEq

def seqOptions : List (Option α) → Option (List α)
  | [] => some []
  | none :: _ => none
  | some s :: rest => (seqOptions rest).map (fun l => s :: l)

/-- Steps 3-4 of the route plus `finalizeIcs` (lines 343-419): build the
event list, render each VEVENT, wrap in the VCALENDAR envelope, fold.
`hash` abstracts the SHA-1 hex digest; `none` models a thrown
`RangeError` (bad all-day end date). -/
def renderFeed (jobs : List Job) (pm : Job → Option OpPair) (allDay : Bool)
    (winStart winEnd : Option Int) (nowMs : Int) (hash : String → String) :
    Option String :=
  let events := buildEvents jobs pm winStart winEnd
  let bodies := events.map (fun e =>
    let uid := hash ("fulcrum:" ++ templS e.id) ++ "@bettis"
    if allDay then
      veventAllDay uid (jsOrS e.start e.end_) (jsOrS e.end_ e.start)
        e.summary e.location e.description e.categories nowMs
    else
      some (veventTimed uid e.start e.end_
        e.summary e.location e.description e.categories nowMs))
  (seqOptions bodies).map (fun bs =>
    let icsBody := String.intercalate crlf bs
    let ics := String.intercalate crlf
      ["BEGIN:VCALENDAR", "VERSION:2.0",
       "PRODID:-//Bettis//Fulcrum Jobs Schedule//EN", "CALSCALE:GREGORIAN",
       "METHOD:PUBLISH", "X-WR-CALNAME:Fulcrum Schedule", "X-WR-TIMEZONE:UTC",
       icsBody, "END:VCALENDAR"]
    finalizeIcs ics)

/-- The fresh-hit test of the route's cache read:
`hit && now - hit.at < CACHE_TTL_SECONDS * 1000`. -/
def freshHit (cache : List (String × CacheEntry)) (key : String)
    (nowMs ttlSeconds : Int) : Option CacheEntry :=
  match mapLookup cache key with
  | some hit => if nowMs - hit.atMs < ttlSeconds * 1000 then some hit else none
  | none => none

/-- The /calendar.ics handler from the cache read onward (lines 243-427),
with the upstream job list, enrichment map, window and mode as inputs. -/
def handleCalendar (cache : List (String × CacheEntry)) (key : String)
    (inm : Option String) (nowMs ttlSeconds : Int)
    (jobs : List Job) (pm : Job → Option OpPair) (allDay : Bool)
    (winStart winEnd : Option Int) (hash : String → String) :
    HttpResponse × List (String × CacheEntry) :=
  match freshHit cache key nowMs ttlSeconds with
  | some hit =>
    if sTruthy inm && inm = some hit.etag then (HttpResponse.notModified, cache)
    else (HttpResponse.ok hit.body hit.etag, cache)
  | none =>
    match renderFeed jobs pm allDay winStart winEnd nowMs hash with
    | none => (HttpResponse.serverError, cache)
    | some body =>
      let etag := "W/\"" ++ hash body ++ "\""
      (HttpResponse.ok body etag, mapSet cache key (CacheEntry.mk nowMs body etag))

example :
    jobIncluded none { } none none = false := by decide
example :
    (buildEvents [{ scheduledStartUtc := some "2024-06-01T10:00:00Z" }]
      (fun _ => none) none none).length = 1 := by decide

/- ===== Concrete fixtures used by the scenario theorems ===== -/

/-- The job of the C3 scenario. -/
def c3job : Job :=
  { id := some "J1"
    number := some 7
    scheduledStartUtc := some "2024-06-01T10:00:00Z"
    scheduledEndUtc := some "2024-06-01T11:00:00Z"
    status := some "scheduled" }

/-- A concrete iCalendar document with an over-75-octet line and no line
starting with a space. -/
def c5doc : List Char :=
  String.data ("BEGIN:VCALENDAR\r\nDESCRIPTION:This description line is deliberately longer than seventy-five octets so that folding must split it.\r\nEND:VCALENDAR\r\n")

/-- `c5doc` as the code-unit sequence of the corresponding JS string
(pure BMP text: one unit per character). -/
def c5docU : List Nat := c5doc.map Char.toNat

/-- A JS string of 19 U+1F600 emoji: 38 UTF-16 code units
(19 surrogate pairs 0xD83D 0xDE00), 76 UTF-8 octets. -/
def emoji19 : List Nat := (List.replicate 19 [55357, 56832]).flatten

/-- The body rendered for an empty job list at time 0 (used against the
response cache). -/
def c8body : String :=
  "BEGIN:VCALENDAR\r\nVERSION:2.0\r\nPRODID:-//Bettis//Fulcrum Jobs Schedule//EN\r\nCALSCALE:GREGORIAN\r\nMETHOD:PUBLISH\r\nX-WR-CALNAME:Fulcrum Schedule\r\nX-WR-TIMEZONE:UTC\r\n\r\nEND:VCALENDAR\r\n"

/- ===== Lemmas: UTF-8 lengths and CRLF occurrence ===== -/

theorem utf8Len_cons (c : Char) (l : List Char) :
    utf8Len (c :: l) = c.utf8Size + utf8Len l := by
  simp [utf8Len]

theorem utf8Len_le_mul (l : List Char) : utf8Len l ≤ 4 * l.length := by
  induction l with
  | nil => simp [utf8Len]
  | cons c rest ih =>
    rw [utf8Len_cons]
    have := Char.utf8Size_le_four c
    simp only [List.length_cons]
    omega

theorem utf8Len_take_le_mul (l : List Char) (n : Nat) :
    utf8Len (l.take n) ≤ 4 * n := by
  calc utf8Len (l.take n) ≤ 4 * (l.take n).length := utf8Len_le_mul _
  _ ≤ 4 * n := by have := List.length_take_le n l; omega

theorem findCut_le (l : List Char) (n : Nat) :
    utf8Len (l.take (findCut l n)) ≤ 75 := by
  induction n with
  | zero => simp [findCut, utf8Len]
  | succ k ih =>
    by_cases h : utf8Len (l.take (k + 1)) > 75
    · simp only [findCut, if_pos h]; exact ih
    · simp only [findCut, if_neg h]; omega

theorem findCut_ge_two (l : List Char) :
    ∀ n, 2 ≤ n → 2 ≤ findCut l n := by
  intro n
  induction n with
  | zero => omega
  | succ k ih =>
    intro _
    by_cases h : utf8Len (l.take (k + 1)) > 75
    · simp only [findCut, if_pos h]
      rcases Nat.lt_or_ge k 2 with hk | hk
      · have h8 := utf8Len_take_le_mul l (k + 1)
        omega
      · exact ih hk
    · simp only [findCut, if_neg h]
      omega

theorem take_two_eq_crlf_iff (a : Char) (l : List Char) :
    (a :: l).take 2 = ['\r', '\n'] ↔ a = '\r' ∧ l.head? = some '\n' := by
  cases l with
  | nil => simp
  | cons b t => simp [List.take_succ_cons]

theorem take_one_eq_iff (l : List Char) (c : Char) :
    l.take 1 = [c] ↔ l.head? = some c := by
  cases l <;> simp

theorem hasCRLF_cons_false (a : Char) (l : List Char) :
    hasCRLF (a :: l) = false ↔ ¬(a = '\r' ∧ l.head? = some '\n') ∧ hasCRLF l = false := by
  simp [hasCRLF, List.take_succ_cons, take_one_eq_iff]

theorem hasCRLF_tail (l : List Char) (h : hasCRLF l = false) :
    hasCRLF l.tail = false := by
  cases l with
  | nil => exact h
  | cons c rest => exact ((hasCRLF_cons_false c rest).mp h).2

theorem hasCRLF_drop (l : List Char) (n : Nat) (h : hasCRLF l = false) :
    hasCRLF (l.drop n) = false := by
  induction n generalizing l with
  | zero => exact h
  | succ k ih =>
    cases l with
    | nil => exact h
    | cons c rest => exact ih rest (((hasCRLF_cons_false c rest).mp h).2)

theorem head?_take_of_pos (l : List Char) (n : Nat) (hn : 0 < n) :
    (l.take n).head? = l.head? := by
  cases l with
  | nil => simp
  | cons c rest =>
    cases n with
    | zero => omega
    | succ k => simp [List.take_succ_cons]

theorem hasCRLF_take (l : List Char) (n : Nat) (h : hasCRLF l = false) :
    hasCRLF (l.take n) = false := by
  induction l generalizing n with
  | nil => simp [List.take_nil]; rfl
  | cons c rest ih =>
    cases n with
    | zero => rfl
    | succ k =>
      rw [List.take_succ_cons, hasCRLF_cons_false]
      obtain ⟨h1, h2⟩ := (hasCRLF_cons_false c rest).mp h
      refine ⟨?_, ih k h2⟩
      intro ⟨hc, hh⟩
      apply h1
      refine ⟨hc, ?_⟩
      cases k with
      | zero => simp at hh
      | succ m => rw [head?_take_of_pos rest (m + 1) (by omega)] at hh; exact hh

/- ===== Lemmas: unfolding ===== -/

theorem unfoldAux_irrel : ∀ f1 f2 (l : List Char), l.length ≤ f1 → l.length ≤ f2 →
    unfoldAux f1 l = unfoldAux f2 l := by
  intro f1
  induction f1 with
  | zero =>
    intro f2 l h1 _
    have hl : l = [] := List.length_eq_zero.mp (Nat.le_zero.mp h1)
    subst hl
    cases f2 <;> rfl
  | succ k ih =>
    intro f2 l h1 h2
    cases l with
    | nil => cases f2 <;> rfl
    | cons c rest =>
      cases f2 with
      | zero => simp at h2
      | succ k2 =>
        rw [List.length_cons] at h1 h2
        simp only [unfoldAux]
        by_cases h : (c :: rest).take 3 = ['\r', '\n', ' ']
        · rw [if_pos h, if_pos h]
          apply ih
          · have hd := List.length_drop 2 rest
            omega
          · have hd := List.length_drop 2 rest
            omega
        · rw [if_neg h, if_neg h]
          have hr := ih k2 rest (by omega) (by omega)
          rw [hr]

theorem unfoldIcs_break (t : List Char) :
    unfoldIcs ('\r' :: '\n' :: ' ' :: t) = unfoldIcs t := by
  have h3 : ('\r' :: '\n' :: ' ' :: t).take 3 = ['\r', '\n', ' '] := by
    simp [List.take_succ_cons]
  simp only [unfoldIcs, List.length_cons, unfoldAux, if_pos h3]
  exact unfoldAux_irrel (t.length + 1 + 1) t.length t (by omega) (le_refl _)

theorem unfoldIcs_cons (c : Char) (rest : List Char)
    (h : (c :: rest).take 3 ≠ ['\r', '\n', ' ']) :
    unfoldIcs (c :: rest) = c :: unfoldIcs rest := by
  simp only [unfoldIcs, List.length_cons, unfoldAux, if_neg h]

theorem take_three_break_iff (a : Char) (l : List Char) :
    (a :: l).take 3 = ['\r', '\n', ' '] ↔
      a = '\r' ∧ l.take 2 = ['\n', ' '] := by
  rw [List.take_succ_cons]
  constructor
  · intro h
    injection h with h1 h2
    exact ⟨h1, h2⟩
  · intro ⟨h1, h2⟩
    rw [h1, h2]

theorem take_two_nl_sp_iff (b : Char) (l : List Char) :
    (b :: l).take 2 = ['\n', ' '] ↔ b = '\n' ∧ l.head? = some ' ' := by
  cases l with
  | nil => simp
  | cons x t => simp [List.take_succ_cons]

theorem unfold_identity (l : List Char) (h : hasCRLF l = false) :
    unfoldIcs l = l := by
  induction l with
  | nil => rfl
  | cons c rest ih =>
    obtain ⟨h1, h2⟩ := (hasCRLF_cons_false c rest).mp h
    have h3 : (c :: rest).take 3 ≠ ['\r', '\n', ' '] := by
      intro hh
      obtain ⟨hc, ht⟩ := (take_three_break_iff c rest).mp hh
      apply h1
      refine ⟨hc, ?_⟩
      cases rest with
      | nil => simp at ht
      | cons b t => simp [((take_two_nl_sp_iff b t).mp ht).1]
    rw [unfoldIcs_cons c rest h3, ih h2]

theorem unfold_pass_break (t : List Char) (h : t.head? ≠ some ' ') :
    unfoldIcs ('\r' :: '\n' :: t) = '\r' :: '\n' :: unfoldIcs t := by
  have h3 : ('\r' :: '\n' :: t).take 3 ≠ ['\r', '\n', ' '] := by
    intro hh
    obtain ⟨-, ht⟩ := (take_three_break_iff '\r' ('\n' :: t)).mp hh
    exact h ((take_two_nl_sp_iff '\n' t).mp ht).2
  rw [unfoldIcs_cons _ _ h3]
  have h4 : ('\n' :: t).take 3 ≠ ['\r', '\n', ' '] := by
    intro hh
    have hc := ((take_three_break_iff '\n' t).mp hh).1
    exact absurd hc (by decide)
  rw [unfoldIcs_cons _ _ h4]

theorem unfold_skip_break (A B : List Char) (hA : hasCRLF A = false) :
    unfoldIcs (A ++ '\r' :: '\n' :: ' ' :: B) = A ++ unfoldIcs B := by
  induction A with
  | nil => simpa using unfoldIcs_break B
  | cons a A2 ih =>
    obtain ⟨h1, h2⟩ := (hasCRLF_cons_false a A2).mp hA
    rw [List.cons_append]
    have h3 : (a :: (A2 ++ '\r' :: '\n' :: ' ' :: B)).take 3 ≠ ['\r', '\n', ' '] := by
      intro hh
      obtain ⟨hc, ht⟩ := (take_three_break_iff _ _).mp hh
      cases A2 with
      | nil => simp [List.take_succ_cons] at ht
      | cons b t =>
        rw [List.cons_append] at ht
        exact h1 ⟨hc, by simp [((take_two_nl_sp_iff b _).mp ht).1]⟩
    rw [unfoldIcs_cons _ _ h3, ih h2, List.cons_append]

theorem unfold_pass_doc (A B : List Char) (hA : hasCRLF A = false)
    (hB : B.head? ≠ some ' ') :
    unfoldIcs (A ++ '\r' :: '\n' :: B) = A ++ '\r' :: '\n' :: unfoldIcs B := by
  induction A with
  | nil => simpa using unfold_pass_break B hB
  | cons a A2 ih =>
    obtain ⟨h1, h2⟩ := (hasCRLF_cons_false a A2).mp hA
    rw [List.cons_append]
    have h3 : (a :: (A2 ++ '\r' :: '\n' :: B)).take 3 ≠ ['\r', '\n', ' '] := by
      intro hh
      obtain ⟨hc, ht⟩ := (take_three_break_iff _ _).mp hh
      cases A2 with
      | nil => simp [List.take_succ_cons] at ht
      | cons b t =>
        rw [List.cons_append] at ht
        exact h1 ⟨hc, by simp [((take_two_nl_sp_iff b _).mp ht).1]⟩
    rw [unfoldIcs_cons _ _ h3, ih h2, List.cons_append]

theorem unfold_cons_ne_cr (a : Char) (Y : List Char) (h : a ≠ '\r') :
    unfoldIcs (a :: Y) = a :: unfoldIcs Y := by
  apply unfoldIcs_cons
  intro hh
  exact h ((take_three_break_iff a Y).mp hh).1

/- ===== Lemmas: joinCRLF and splitCRLF ===== -/

theorem joinCRLF_cons (p : List Char) (ps : List (List Char)) (h : ps ≠ []) :
    joinCRLF (p :: ps) = p ++ '\r' :: '\n' :: joinCRLF ps := by
  cases ps with
  | nil => exact absurd rfl h
  | cons q qs => rfl

theorem joinCRLF_cons_head (c : Char) (s : List Char) (ss : List (List Char)) :
    joinCRLF ((c :: s) :: ss) = c :: joinCRLF (s :: ss) := by
  cases ss <;> rfl

theorem joinCRLF_append (A B : List (List Char)) (hA : A ≠ []) (hB : B ≠ []) :
    joinCRLF (A ++ B) = joinCRLF A ++ '\r' :: '\n' :: joinCRLF B := by
  induction A with
  | nil => exact absurd rfl hA
  | cons p A2 ih =>
    cases A2 with
    | nil => simpa using joinCRLF_cons p B hB
    | cons q A3 =>
      rw [List.cons_append, joinCRLF_cons p ((q :: A3) ++ B) (by simp),
        joinCRLF_cons p (q :: A3) (by simp), ih (by simp)]
      simp [List.append_assoc]

theorem splitCRLFAux_ne_nil (fuel : Nat) (l : List Char) : splitCRLFAux fuel l ≠ [] := by
  cases fuel with
  | zero => simp [splitCRLFAux]
  | succ k =>
    cases l with
    | nil => simp [splitCRLFAux]
    | cons c rest =>
      simp only [splitCRLFAux]
      by_cases h : (c :: rest).take 2 = ['\r', '\n']
      · rw [if_pos h]; simp
      · rw [if_neg h]
        cases hs : splitCRLFAux k rest <;> simp

theorem splitCRLF_ne_nil (l : List Char) : splitCRLF l ≠ [] :=
  splitCRLFAux_ne_nil _ _

theorem splitCRLFAux_irrel : ∀ f1 f2 (l : List Char), l.length ≤ f1 → l.length ≤ f2 →
    splitCRLFAux f1 l = splitCRLFAux f2 l := by
  intro f1
  induction f1 with
  | zero =>
    intro f2 l h1 _
    have hl : l = [] := List.length_eq_zero.mp (Nat.le_zero.mp h1)
    subst hl
    cases f2 <;> rfl
  | succ k ih =>
    intro f2 l h1 h2
    cases l with
    | nil => cases f2 <;> rfl
    | cons c rest =>
      cases f2 with
      | zero => simp at h2
      | succ k2 =>
        rw [List.length_cons] at h1 h2
        simp only [splitCRLFAux]
        by_cases h : (c :: rest).take 2 = ['\r', '\n']
        · rw [if_pos h, if_pos h]
          have ht := List.length_tail rest
          rw [ih k2 rest.tail (by omega) (by omega)]
        · rw [if_neg h, if_neg h]
          rw [ih k2 rest (by omega) (by omega)]

theorem splitCRLF_break (t : List Char) :
    splitCRLF ('\r' :: '\n' :: t) = [] :: splitCRLF t := by
  have h2 : ('\r' :: '\n' :: t).take 2 = ['\r', '\n'] := by simp [List.take_succ_cons]
  simp only [splitCRLF, List.length_cons, splitCRLFAux, if_pos h2]
  congr 1
  exact splitCRLFAux_irrel (t.length + 1) t.length t (by omega) (le_refl _)

theorem splitCRLF_cons_eq (c : Char) (rest s : List Char) (ss : List (List Char))
    (h : (c :: rest).take 2 ≠ ['\r', '\n']) (hs : splitCRLF rest = s :: ss) :
    splitCRLF (c :: rest) = (c :: s) :: ss := by
  simp only [splitCRLF, List.length_cons, splitCRLFAux, if_neg h]
  rw [show splitCRLFAux rest.length rest = splitCRLF rest from rfl, hs]

theorem splitCRLF_head (l s : List Char) (ss : List (List Char))
    (h : splitCRLF l = s :: ss) : s.head? = none ∨ s.head? = l.head? := by
  cases l with
  | nil =>
    have he : ([[]] : List (List Char)) = s :: ss := h
    injection he with he1 _
    left
    rw [← he1]
    rfl
  | cons c rest =>
    by_cases hb : (c :: rest).take 2 = ['\r', '\n']
    · obtain ⟨hc, hh⟩ := (take_two_eq_crlf_iff c rest).mp hb
      cases rest with
      | nil => simp at hh
      | cons b t =>
        have hbn : b = '\n' := by simpa using hh
        subst hc; subst hbn
        rw [splitCRLF_break] at h
        injection h with he1 _
        left
        rw [← he1]
        rfl
    · obtain ⟨s0, ss0, hs0⟩ := List.exists_cons_of_ne_nil (splitCRLF_ne_nil rest)
      rw [splitCRLF_cons_eq c rest s0 ss0 hb hs0] at h
      injection h with he1 _
      right
      rw [← he1]
      rfl

theorem splitCRLF_noCRLF : ∀ n (l : List Char), l.length ≤ n →
    ∀ p ∈ splitCRLF l, hasCRLF p = false := by
  intro n
  induction n with
  | zero =>
    intro l h p hp
    have hl : l = [] := List.length_eq_zero.mp (Nat.le_zero.mp h)
    subst hl
    have he : p ∈ ([[]] : List (List Char)) := hp
    simp at he
    subst he
    rfl
  | succ k ih =>
    intro l h p hp
    cases l with
    | nil =>
      have he : p ∈ ([[]] : List (List Char)) := hp
      simp at he
      subst he
      rfl
    | cons c rest =>
      rw [List.length_cons] at h
      by_cases hb : (c :: rest).take 2 = ['\r', '\n']
      · obtain ⟨hc, hh⟩ := (take_two_eq_crlf_iff c rest).mp hb
        cases rest with
        | nil => simp at hh
        | cons b t =>
          have hbn : b = '\n' := by simpa using hh
          subst hc; subst hbn
          rw [splitCRLF_break] at hp
          rcases List.mem_cons.mp hp with h1 | h2
          · subst h1; rfl
          · exact ih t (by simp at h; omega) p h2
      · obtain ⟨s0, ss0, hs0⟩ := List.exists_cons_of_ne_nil (splitCRLF_ne_nil rest)
        rw [splitCRLF_cons_eq c rest s0 ss0 hb hs0] at hp
        rcases List.mem_cons.mp hp with h1 | h2
        · subst h1
          rw [hasCRLF_cons_false]
          constructor
          · intro ⟨hc, hh⟩
            rcases splitCRLF_head rest s0 ss0 hs0 with hn | he
            · rw [hn] at hh; exact Option.noConfusion hh
            · rw [he] at hh
              exact hb ((take_two_eq_crlf_iff c rest).mpr ⟨hc, hh⟩)
          · exact ih rest (by omega) s0 (by rw [hs0]; exact List.mem_cons_self _ _)
        · exact ih rest (by omega) p (by rw [hs0]; exact List.mem_cons_of_mem _ h2)

theorem joinCRLF_splitCRLF : ∀ n (l : List Char), l.length ≤ n →
    joinCRLF (splitCRLF l) = l := by
  intro n
  induction n with
  | zero =>
    intro l h
    have hl : l = [] := List.length_eq_zero.mp (Nat.le_zero.mp h)
    subst hl
    rfl
  | succ k ih =>
    intro l h
    cases l with
    | nil => rfl
    | cons c rest =>
      rw [List.length_cons] at h
      by_cases hb : (c :: rest).take 2 = ['\r', '\n']
      · obtain ⟨hc, hh⟩ := (take_two_eq_crlf_iff c rest).mp hb
        cases rest with
        | nil => simp at hh
        | cons b t =>
          have hbn : b = '\n' := by simpa using hh
          subst hc; subst hbn
          rw [splitCRLF_break, joinCRLF_cons [] (splitCRLF t) (splitCRLF_ne_nil t)]
          rw [ih t (by simp at h; omega)]
          rfl
      · obtain ⟨s0, ss0, hs0⟩ := List.exists_cons_of_ne_nil (splitCRLF_ne_nil rest)
        rw [splitCRLF_cons_eq c rest s0 ss0 hb hs0, joinCRLF_cons_head]
        have hr := ih rest (by omega)
        rw [hs0] at hr
        rw [hr]

theorem splitCRLF_of_noCRLF (p : List Char) (h : hasCRLF p = false) :
    splitCRLF p = [p] := by
  induction p with
  | nil => rfl
  | cons c rest ih =>
    obtain ⟨h1, h2⟩ := (hasCRLF_cons_false c rest).mp h
    have hb : (c :: rest).take 2 ≠ ['\r', '\n'] := fun hh =>
      h1 ((take_two_eq_crlf_iff c rest).mp hh)
    rw [splitCRLF_cons_eq c rest rest [] hb (ih h2)]

theorem splitCRLF_append_break (p T : List Char) (h : hasCRLF p = false) :
    splitCRLF (p ++ '\r' :: '\n' :: T) = p :: splitCRLF T := by
  induction p with
  | nil => simpa using splitCRLF_break T
  | cons a p2 ih =>
    obtain ⟨h1, h2⟩ := (hasCRLF_cons_false a p2).mp h
    rw [List.cons_append]
    have hb : (a :: (p2 ++ '\r' :: '\n' :: T)).take 2 ≠ ['\r', '\n'] := by
      intro hh
      obtain ⟨hc, hhd⟩ := (take_two_eq_crlf_iff _ _).mp hh
      cases p2 with
      | nil => simp at hhd
      | cons b t =>
        rw [List.cons_append] at hhd
        have hbn : b = '\n' := by simpa using hhd
        exact h1 ⟨hc, by simp [hbn]⟩
    obtain ⟨s0, ss0, hs0⟩ := List.exists_cons_of_ne_nil (splitCRLF_ne_nil (p2 ++ '\r' :: '\n' :: T))
    rw [ih h2] at hs0
    injection hs0 with he1 he2
    rw [splitCRLF_cons_eq a _ p2 (splitCRLF T) hb (by rw [ih h2])]

theorem splitCRLF_joinCRLF : ∀ ps : List (List Char), ps ≠ [] →
    (∀ p ∈ ps, hasCRLF p = false) → splitCRLF (joinCRLF ps) = ps := by
  intro ps
  induction ps with
  | nil => intro h _; exact absurd rfl h
  | cons p ps2 ih =>
    intro _ hall
    cases ps2 with
    | nil => exact splitCRLF_of_noCRLF p (hall p (by simp))
    | cons q qs =>
      rw [joinCRLF_cons p (q :: qs) (by simp)]
      rw [splitCRLF_append_break p (joinCRLF (q :: qs)) (hall p (by simp))]
      rw [ih (by simp) (fun r hr => hall r (List.mem_cons_of_mem _ hr))]

/- ===== Lemmas: foldOne pieces ===== -/

theorem foldOneAux_ne_nil (fuel : Nat) (cur : List Char) : foldOneAux fuel cur ≠ [] := by
  cases fuel with
  | zero => simp [foldOneAux]
  | succ k =>
    simp only [foldOneAux]
    by_cases h : utf8Len cur > 75
    · rw [if_pos h]; simp
    · rw [if_neg h]; simp

theorem foldOneAux_head (fuel : Nat) (x : Char) (rest : List Char) :
    ∃ t ps, foldOneAux fuel (x :: rest) = (x :: t) :: ps := by
  cases fuel with
  | zero => exact ⟨rest, [], rfl⟩
  | succ k =>
    by_cases h : utf8Len (x :: rest) > 75
    · have hc := findCut_ge_two (x :: rest) 75 (by omega)
      obtain ⟨m, hm⟩ : ∃ m, findCut (x :: rest) 75 = m + 1 :=
        ⟨findCut (x :: rest) 75 - 1, by omega⟩
      refine ⟨rest.take m, foldOneAux k (' ' :: rest.drop m), ?_⟩
      simp only [foldOneAux, if_pos h, hm, List.take_succ_cons, List.drop_succ_cons]
    · exact ⟨rest, [], by simp only [foldOneAux, if_neg h]⟩

theorem foldOneAux_le75 (fuel : Nat) : ∀ cur : List Char, cur.length ≤ fuel →
    ∀ p ∈ foldOneAux fuel cur, utf8Len p ≤ 75 := by
  induction fuel with
  | zero =>
    intro cur hlen p hp
    have hc : cur = [] := List.length_eq_zero.mp (Nat.le_zero.mp hlen)
    subst hc
    have he : p ∈ ([[]] : List (List Char)) := hp
    simp at he
    subst he
    simp [utf8Len]
  | succ k ih =>
    intro cur hlen p hp
    by_cases h : utf8Len cur > 75
    · simp only [foldOneAux, if_pos h] at hp
      rcases List.mem_cons.mp hp with h1 | h2
      · subst h1; exact findCut_le cur 75
      · apply ih (' ' :: cur.drop (findCut cur 75)) ?_ p h2
        have hc := findCut_ge_two cur 75 (by omega)
        have hd := List.length_drop (findCut cur 75) cur
        have hlb := utf8Len_le_mul cur
        simp only [List.length_cons, hd]
        omega
    · simp only [foldOneAux, if_neg h] at hp
      simp at hp
      subst hp
      omega

theorem foldOneAux_tail_head (fuel : Nat) : ∀ cur : List Char,
    ∀ p ∈ (foldOneAux fuel cur).tail, p.head? = some ' ' := by
  induction fuel with
  | zero => intro cur p hp; simp [foldOneAux] at hp
  | succ k ih =>
    intro cur p hp
    by_cases h : utf8Len cur > 75
    · simp only [foldOneAux, if_pos h, List.tail_cons] at hp
      obtain ⟨t, ps, he⟩ := foldOneAux_head k ' ' (cur.drop (findCut cur 75))
      rw [he] at hp
      rcases List.mem_cons.mp hp with h1 | h2
      · subst h1; rfl
      · have := ih (' ' :: cur.drop (findCut cur 75)) p (by rw [he]; exact h2)
        exact this
    · simp only [foldOneAux, if_neg h, List.tail_cons] at hp
      simp at hp

theorem foldOneAux_noCRLF (fuel : Nat) : ∀ cur : List Char, hasCRLF cur = false →
    ∀ p ∈ foldOneAux fuel cur, hasCRLF p = false := by
  induction fuel with
  | zero =>
    intro cur hc p hp
    have he : p ∈ [cur] := hp
    simp at he
    subst he
    exact hc
  | succ k ih =>
    intro cur hc p hp
    by_cases h : utf8Len cur > 75
    · simp only [foldOneAux, if_pos h] at hp
      rcases List.mem_cons.mp hp with h1 | h2
      · subst h1; exact hasCRLF_take cur _ hc
      · apply ih (' ' :: cur.drop (findCut cur 75)) ?_ p h2
        rw [hasCRLF_cons_false]
        refine ⟨?_, hasCRLF_drop cur _ hc⟩
        intro ⟨hsp, _⟩
        exact absurd hsp (by decide)
    · simp only [foldOneAux, if_neg h] at hp
      simp at hp
      subst hp
      exact hc

/- ===== Fold/unfold round trip ===== -/

/-- What follows a folded line group in the document (nothing, or a CRLF
then the rest of the folded document). -/
def glueL : Option (List Char) → List Char
  | none => []
  | some t => '\r' :: '\n' :: t

/-- Image of the glue under unfolding. -/
def glueR : Option (List Char) → List Char
  | none => []
  | some t => '\r' :: '\n' :: unfoldIcs t

def glueOK : Option (List Char) → Prop
  | none => True
  | some t => t.head? ≠ some ' '

theorem foldOne_unfold : ∀ fuel (cur : List Char) (T : Option (List Char)),
    cur.length ≤ fuel → hasCRLF cur = false → glueOK T →
    unfoldIcs (joinCRLF (foldOneAux fuel cur) ++ glueL T) = cur ++ glueR T := by
  intro fuel
  induction fuel with
  | zero =>
    intro cur T hlen hc hT
    have h0 : cur = [] := List.length_eq_zero.mp (Nat.le_zero.mp hlen)
    subst h0
    show unfoldIcs ([] ++ glueL T) = [] ++ glueR T
    cases T with
    | none => rfl
    | some t => simpa [glueL, glueR] using unfold_pass_break t hT
  | succ k ih =>
    intro cur T hlen hc hT
    by_cases h : utf8Len cur > 75
    · have hcut := findCut_ge_two cur 75 (by omega)
      have hlb := utf8Len_le_mul cur
      have hd := List.length_drop (findCut cur 75) cur
      have hsub_len : (' ' :: cur.drop (findCut cur 75)).length ≤ k := by
        simp only [List.length_cons, hd]
        omega
      have hsub_crlf : hasCRLF (' ' :: cur.drop (findCut cur 75)) = false := by
        rw [hasCRLF_cons_false]
        refine ⟨?_, hasCRLF_drop cur _ hc⟩
        intro ⟨hsp, _⟩
        exact absurd hsp (by decide)
      obtain ⟨t0, ps0, hps0⟩ := foldOneAux_head k ' ' (cur.drop (findCut cur 75))
      have hIH := ih (' ' :: cur.drop (findCut cur 75)) T hsub_len hsub_crlf hT
      rw [hps0, joinCRLF_cons_head, List.cons_append,
        unfold_cons_ne_cr ' ' _ (by decide), List.cons_append] at hIH
      have hkey : unfoldIcs (joinCRLF (t0 :: ps0) ++ glueL T)
          = cur.drop (findCut cur 75) ++ glueR T := by
        injection hIH
      simp only [foldOneAux, if_pos h]
      rw [joinCRLF_cons (cur.take (findCut cur 75)) (foldOneAux k (' ' :: cur.drop (findCut cur 75)))
        (foldOneAux_ne_nil _ _), hps0, joinCRLF_cons_head]
      have hshape : (cur.take (findCut cur 75) ++ '\r' :: '\n' :: ' ' :: joinCRLF (t0 :: ps0)) ++ glueL T
          = cur.take (findCut cur 75) ++ '\r' :: '\n' :: ' ' :: (joinCRLF (t0 :: ps0) ++ glueL T) := by
        simp [List.append_assoc]
      rw [hshape, unfold_skip_break _ _ (hasCRLF_take cur _ hc), hkey,
        ← List.append_assoc, List.take_append_drop]
    · simp only [foldOneAux, if_neg h]
      show unfoldIcs (cur ++ glueL T) = cur ++ glueR T
      cases T with
      | none =>
        show unfoldIcs (cur ++ []) = cur ++ []
        simpa using unfold_identity cur hc
      | some t => exact unfold_pass_doc cur t hc hT

theorem joinCRLF_head_eq (s : List Char) (ss : List (List Char)) :
    (joinCRLF (s :: ss)).head? = s.head? ∨
      ((joinCRLF (s :: ss)).head? = some '\r' ∧ s = []) := by
  cases ss with
  | nil => left; rfl
  | cons u us =>
    rw [joinCRLF_cons s (u :: us) (by simp)]
    cases s with
    | nil => right; exact ⟨rfl, rfl⟩
    | cons a t => left; rfl

theorem unfold_foldGroups : ∀ lines : List (List Char),
    (∀ p ∈ lines, hasCRLF p = false) →
    (∀ p ∈ lines, p.head? ≠ some ' ') →
    unfoldIcs (joinCRLF ((lines.map foldOne).flatten)) = joinCRLF lines := by
  intro lines
  induction lines with
  | nil => intro _ _; rfl
  | cons line rest ih =>
    intro hcrlf hsp
    cases rest with
    | nil =>
      have hkey := foldOne_unfold line.length line none (le_refl _) (hcrlf line (by simp)) trivial
      simp only [glueL, glueR, List.append_nil] at hkey
      simpa [foldOne] using hkey
    | cons q qs =>
      have hflat_ne : (((q :: qs).map foldOne).flatten) ≠ [] := by
        simp only [List.map_cons, List.flatten_cons]
        intro hcontra
        exact foldOneAux_ne_nil _ _ (List.append_eq_nil.mp hcontra).1
      have hq0 : ∃ p0 prest, foldOne q = p0 :: prest ∧ (p0.head? = none ∨ p0.head? = q.head?) := by
        cases q with
        | nil => exact ⟨[], [], rfl, Or.inl rfl⟩
        | cons x t =>
          obtain ⟨t0, ps0, hq⟩ := foldOneAux_head (x :: t).length x t
          exact ⟨x :: t0, ps0, hq, Or.inr rfl⟩
      obtain ⟨p0, prest, hq1, hq2⟩ := hq0
      have hhead : (joinCRLF (((q :: qs).map foldOne).flatten)).head? ≠ some ' ' := by
        rw [List.map_cons, List.flatten_cons, hq1, List.cons_append]
        rcases joinCRLF_head_eq p0 (prest ++ ((qs.map foldOne).flatten)) with hh | hh
        · rw [hh]
          rcases hq2 with h0 | h0
          · rw [h0]; simp
          · rw [h0]; exact hsp q (by simp)
        · rw [hh.1]; simp
      have hkey := foldOne_unfold line.length line
        (some (joinCRLF (((q :: qs).map foldOne).flatten)))
        (le_refl _) (hcrlf line (by simp)) hhead
      simp only [glueL, glueR] at hkey
      rw [List.map_cons, List.flatten_cons,
        joinCRLF_append (foldOne line) (((q :: qs).map foldOne).flatten)
          (foldOneAux_ne_nil _ _) hflat_ne]
      rw [show foldOne line = foldOneAux line.length line from rfl]
      rw [hkey]
      rw [ih (fun r hr => hcrlf r (List.mem_cons_of_mem _ hr))
        (fun r hr => hsp r (List.mem_cons_of_mem _ hr))]
      rw [joinCRLF_cons line (q :: qs) (by simp)]

/-- Soundness of `foldLines`: provided no input line begins with a space,
every output line fits in 75 octets, every continuation line starts with a
space, and removing the CRLF-space breaks reconstructs the input exactly. -/
theorem foldLinesL_spec (l : List Char)
    (hsp : ∀ line ∈ splitCRLF l, line.head? ≠ some ' ') :
    (∀ out ∈ splitCRLF (foldLinesL l), utf8Len out ≤ 75) ∧
    (∀ line ∈ splitCRLF l, ∀ p ∈ (foldOne line).tail, p.head? = some ' ') ∧
    unfoldIcs (foldLinesL l) = l := by
  have hlines_crlf : ∀ p ∈ splitCRLF l, hasCRLF p = false :=
    splitCRLF_noCRLF l.length l (le_refl _)
  refine ⟨?_, ?_, ?_⟩
  · intro out hout
    have hpieces_ne : ((splitCRLF l).map foldOne).flatten ≠ [] := by
      obtain ⟨s0, ss0, hs0⟩ := List.exists_cons_of_ne_nil (splitCRLF_ne_nil l)
      rw [hs0, List.map_cons, List.flatten_cons]
      intro hcontra
      exact foldOneAux_ne_nil _ _ (List.append_eq_nil.mp hcontra).1
    have hpieces_crlf : ∀ p ∈ ((splitCRLF l).map foldOne).flatten, hasCRLF p = false := by
      intro p hp
      obtain ⟨grp, hgrp, hpin⟩ := List.mem_flatten.mp hp
      obtain ⟨line, hline, hfold⟩ := List.mem_map.mp hgrp
      subst hfold
      exact foldOneAux_noCRLF _ line (hlines_crlf line hline) p hpin
    have hsplit : splitCRLF (foldLinesL l) = ((splitCRLF l).map foldOne).flatten := by
      simp only [foldLinesL]
      exact splitCRLF_joinCRLF _ hpieces_ne hpieces_crlf
    rw [hsplit] at hout
    obtain ⟨grp, hgrp, hpin⟩ := List.mem_flatten.mp hout
    obtain ⟨line, hline, hfold⟩ := List.mem_map.mp hgrp
    subst hfold
    exact foldOneAux_le75 line.length line (le_refl _) out hpin
  · intro line _ p hp
    exact foldOneAux_tail_head line.length line p hp
  · calc unfoldIcs (foldLinesL l)
        = joinCRLF (splitCRLF l) := unfold_foldGroups (splitCRLF l) hlines_crlf hsp
    _ = l := joinCRLF_splitCRLF l.length l (le_refl _)

/- ===== Lemmas: the BMP embedding and the code-unit fold =====

For text whose characters are all below 0x10000 (and hence, since Lean
characters are Unicode scalar values, never surrogates), one code point
is one UTF-16 unit and the code-unit fold computes exactly the
code-point fold. -/

theorem encU_cons (c : Char) (l : List Char) : encU (c :: l) = c.toNat :: encU l := rfl

theorem encU_take (l : List Char) (n : Nat) : encU (l.take n) = (encU l).take n :=
  List.map_take Char.toNat l n

theorem encU_drop (l : List Char) (n : Nat) : encU (l.drop n) = (encU l).drop n :=
  List.map_drop Char.toNat l n

theorem encU_tail (l : List Char) : encU l.tail = (encU l).tail :=
  List.map_tail Char.toNat l

theorem encU_length (l : List Char) : (encU l).length = l.length :=
  List.length_map l Char.toNat

theorem encU_head? (l : List Char) : (encU l).head? = l.head?.map Char.toNat :=
  List.head?_map Char.toNat l

theorem uint32_le_iff (a b : UInt32) : a ≤ b ↔ a.toNat ≤ b.toNat := by
  rw [UInt32.le_def, BitVec.le_def]
  rfl

/-- A Lean character is a Unicode scalar value, never a surrogate. -/
theorem char_not_surrogate (c : Char) : ¬(55296 ≤ c.toNat ∧ c.toNat ≤ 57343) := by
  have h := c.valid
  have hchar : Char.toNat c = c.val.toNat := rfl
  rcases h with h | h
  · rw [hchar]; omega
  · rw [hchar]; omega

theorem u16IsHigh_char (c : Char) : u16IsHigh c.toNat = false := by
  have h := char_not_surrogate c
  by_cases h1 : 55296 ≤ c.toNat
  · have h2 : ¬c.toNat ≤ 56319 := fun h2 => h ⟨h1, by omega⟩
    simp [u16IsHigh, h2]
  · simp [u16IsHigh, h1]

theorem char_toNat_ofNat (u : Nat) (h : u.isValidChar) : (Char.ofNat u).toNat = u := by
  simp [Char.ofNat, h, Char.ofNatAux, Char.toNat, UInt32.toNat, BitVec.toNat_ofNatLt]

theorem char_toNat_inj (a b : Char) (h : a.toNat = b.toNat) : a = b := by
  rw [← Char.ofNat_toNat a, ← Char.ofNat_toNat b, h]

theorem utf8Size_eq_u8size1 (c : Char) (h : c.toNat < 65536) :
    c.utf8Size = u8size1 c.toNat := by
  have hchar : Char.toNat c = c.val.toNat := rfl
  rw [hchar] at h
  have h127 : (UInt32.ofNatCore 127 Char.utf8Size.proof_1).toNat = 127 := rfl
  have h2047 : (UInt32.ofNatCore 2047 Char.utf8Size.proof_2).toNat = 2047 := rfl
  have h65535 : (UInt32.ofNatCore 65535 Char.utf8Size.proof_3).toNat = 65535 := rfl
  simp only [Char.utf8Size, u8size1, uint32_le_iff, h127, h2047, h65535, hchar]
  by_cases h1 : c.val.toNat ≤ 127
  · rw [if_pos h1, if_pos (show c.val.toNat < 128 by omega)]
  · rw [if_neg h1]
    by_cases h2 : c.val.toNat ≤ 2047
    · rw [if_pos h2, if_neg (show ¬c.val.toNat < 128 by omega),
        if_pos (show c.val.toNat < 2048 by omega)]
    · rw [if_neg h2, if_pos (show c.val.toNat ≤ 65535 by omega),
        if_neg (show ¬c.val.toNat < 128 by omega),
        if_neg (show ¬c.val.toNat < 2048 by omega)]

theorem char_toNat_eq_iff (c d : Char) : c.toNat = d.toNat ↔ c = d :=
  ⟨char_toNat_inj c d, fun h => by rw [h]⟩

theorem utf8LenU_encU : ∀ cl : List Char, (∀ c ∈ cl, c.toNat < 65536) →
    utf8LenU (encU cl) = utf8Len cl := by
  intro cl
  induction cl with
  | nil => intro _; rfl
  | cons c rest ih =>
    intro hb
    cases rest with
    | nil =>
      show u8size1 c.toNat = utf8Len [c]
      have h1 : utf8Len [c] = c.utf8Size := by simp [utf8Len]
      rw [h1, utf8Size_eq_u8size1 c (hb c (by simp))]
    | cons c2 rest2 =>
      have he : utf8LenU (encU (c :: c2 :: rest2))
          = if u16IsHigh c.toNat && u16IsLow c2.toNat then 4 + utf8LenU (encU rest2)
            else u8size1 c.toNat + utf8LenU (encU (c2 :: rest2)) := rfl
      rw [he, u16IsHigh_char c, Bool.false_and, if_neg Bool.false_ne_true,
        utf8Len_cons, ih (fun x hx => hb x (List.mem_cons_of_mem _ hx)),
        utf8Size_eq_u8size1 c (hb c (by simp))]

theorem findCutU_encU (cl : List Char) (hb : ∀ c ∈ cl, c.toNat < 65536) :
    ∀ n, findCutU (encU cl) n = findCut cl n := by
  intro n
  induction n with
  | zero => rfl
  | succ k ih =>
    have ht : utf8LenU ((encU cl).take (k + 1)) = utf8Len (cl.take (k + 1)) := by
      rw [← encU_take]
      exact utf8LenU_encU _ (fun c hc => hb c (List.take_subset _ _ hc))
    simp only [findCutU, findCut, ht]
    by_cases h : utf8Len (cl.take (k + 1)) > 75
    · rw [if_pos h, if_pos h, ih]
    · rw [if_neg h, if_neg h]

theorem foldOneAuxU_encU : ∀ fuel (cl : List Char), (∀ c ∈ cl, c.toNat < 65536) →
    foldOneAuxU fuel (encU cl) = (foldOneAux fuel cl).map encU := by
  intro fuel
  induction fuel with
  | zero => intro cl _; rfl
  | succ k ih =>
    intro cl hb
    have hlen := utf8LenU_encU cl hb
    by_cases h : utf8Len cl > 75
    · have hcut := findCutU_encU cl hb 75
      have hb2 : ∀ x ∈ ' ' :: cl.drop (findCut cl 75), x.toNat < 65536 := by
        intro x hx
        rcases List.mem_cons.mp hx with rfl | hx2
        · decide
        · exact hb x (List.drop_subset _ _ hx2)
      simp only [foldOneAuxU, foldOneAux, hlen, if_pos h, hcut]
      rw [← encU_take,
        show (32 : Nat) :: (encU cl).drop (findCut cl 75)
          = encU (' ' :: cl.drop (findCut cl 75)) from by rw [← encU_drop]; rfl,
        ih _ hb2]
      rfl
    · simp only [foldOneAuxU, foldOneAux, hlen, if_neg h]
      rfl

theorem encU_take2_crlf (c : Char) (rest : List Char) :
    (encU (c :: rest)).take 2 = [13, 10] ↔ (c :: rest).take 2 = ['\r', '\n'] := by
  cases rest with
  | nil => simp [encU]
  | cons c2 rest2 =>
    have he : (encU (c :: c2 :: rest2)).take 2 = [c.toNat, c2.toNat] := rfl
    have hc : ((c :: c2 :: rest2).take 2 : List Char) = [c, c2] := rfl
    rw [he, hc]
    constructor
    · intro hh
      injection hh with ha hb
      injection hb with hb _
      rw [char_toNat_inj c '\r' ha, char_toNat_inj c2 '\n' hb]
    · intro hh
      injection hh with ha hb
      injection hb with hb _
      rw [ha, hb]
      rfl

theorem encU_take3_break (c : Char) (rest : List Char) :
    (encU (c :: rest)).take 3 = [13, 10, 32] ↔ (c :: rest).take 3 = ['\r', '\n', ' '] := by
  cases rest with
  | nil => simp [encU]
  | cons c2 rest2 =>
    cases rest2 with
    | nil => simp [encU]
    | cons c3 rest3 =>
      have he : (encU (c :: c2 :: c3 :: rest3)).take 3 = [c.toNat, c2.toNat, c3.toNat] := rfl
      have hc : ((c :: c2 :: c3 :: rest3).take 3 : List Char) = [c, c2, c3] := rfl
      rw [he, hc]
      constructor
      · intro hh
        injection hh with h1 hh2
        injection hh2 with h2 hh3
        injection hh3 with h3 _
        rw [char_toNat_inj c '\r' h1, char_toNat_inj c2 '\n' h2, char_toNat_inj c3 ' ' h3]
      · intro hh
        injection hh with h1 hh2
        injection hh2 with h2 hh3
        injection hh3 with h3 _
        rw [h1, h2, h3]
        rfl

theorem splitCRLFAuxU_encU : ∀ fuel (cl : List Char),
    splitCRLFAuxU fuel (encU cl) = (splitCRLFAux fuel cl).map encU := by
  intro fuel
  induction fuel with
  | zero => intro cl; rfl
  | succ k ih =>
    intro cl
    cases cl with
    | nil => rfl
    | cons c rest =>
      by_cases h : (c :: rest).take 2 = ['\r', '\n']
      · have hu : (c.toNat :: encU rest).take 2 = [13, 10] := (encU_take2_crlf c rest).mpr h
        show splitCRLFAuxU (k + 1) (c.toNat :: encU rest)
          = (splitCRLFAux (k + 1) (c :: rest)).map encU
        simp only [splitCRLFAuxU, splitCRLFAux]
        rw [if_pos hu, if_pos h, ← encU_tail, ih rest.tail]
        rfl
      · have hu : ¬(c.toNat :: encU rest).take 2 = [13, 10] :=
          fun hh => h ((encU_take2_crlf c rest).mp hh)
        show splitCRLFAuxU (k + 1) (c.toNat :: encU rest)
          = (splitCRLFAux (k + 1) (c :: rest)).map encU
        simp only [splitCRLFAuxU, splitCRLFAux]
        rw [if_neg hu, if_neg h, ih rest]
        cases hs : splitCRLFAux k rest with
        | nil => rfl
        | cons s ss => rfl

theorem joinCRLFU_encU : ∀ ps : List (List Char),
    joinCRLFU (ps.map encU) = encU (joinCRLF ps) := by
  intro ps
  induction ps with
  | nil => rfl
  | cons p ps2 ih =>
    cases ps2 with
    | nil => rfl
    | cons q qs =>
      have h1 : joinCRLFU (encU p :: encU q :: qs.map encU)
          = encU p ++ 13 :: 10 :: joinCRLFU (encU q :: qs.map encU) := rfl
      have h2 : encU (joinCRLF (p :: q :: qs))
          = encU p ++ encU ('\r' :: '\n' :: joinCRLF (q :: qs)) := by
        rw [show joinCRLF (p :: q :: qs) = p ++ '\r' :: '\n' :: joinCRLF (q :: qs) from rfl]
        exact List.map_append _ _ _
      show joinCRLFU (encU p :: encU q :: qs.map encU) = encU (joinCRLF (p :: q :: qs))
      rw [h1, h2]
      congr 1
      show 13 :: 10 :: joinCRLFU ((q :: qs).map encU)
        = 13 :: 10 :: encU (joinCRLF (q :: qs))
      rw [ih]

theorem unfoldAuxU_encU : ∀ fuel (cl : List Char),
    unfoldAuxU fuel (encU cl) = encU (unfoldAux fuel cl) := by
  intro fuel
  induction fuel with
  | zero => intro cl; rfl
  | succ k ih =>
    intro cl
    cases cl with
    | nil => rfl
    | cons c rest =>
      by_cases h : (c :: rest).take 3 = ['\r', '\n', ' ']
      · have hu : (c.toNat :: encU rest).take 3 = [13, 10, 32] :=
          (encU_take3_break c rest).mpr h
        show unfoldAuxU (k + 1) (c.toNat :: encU rest) = encU (unfoldAux (k + 1) (c :: rest))
        simp only [unfoldAuxU, unfoldAux]
        rw [if_pos hu, if_pos h, ← encU_drop, ih]
      · have hu : ¬(c.toNat :: encU rest).take 3 = [13, 10, 32] :=
          fun hh => h ((encU_take3_break c rest).mp hh)
        show unfoldAuxU (k + 1) (c.toNat :: encU rest) = encU (unfoldAux (k + 1) (c :: rest))
        simp only [unfoldAuxU, unfoldAux]
        rw [if_neg hu, if_neg h, ih]
        rfl

theorem splitCRLF_sub : ∀ n (l : List Char), l.length ≤ n →
    ∀ p ∈ splitCRLF l, ∀ c ∈ p, c ∈ l := by
  intro n
  induction n with
  | zero =>
    intro l h p hp c hc
    have hl : l = [] := List.length_eq_zero.mp (Nat.le_zero.mp h)
    subst hl
    have he : p ∈ ([[]] : List (List Char)) := hp
    simp at he
    subst he
    simp at hc
  | succ k ih =>
    intro l h p hp c hc
    cases l with
    | nil =>
      have he : p ∈ ([[]] : List (List Char)) := hp
      simp at he
      subst he
      simp at hc
    | cons c0 rest =>
      rw [List.length_cons] at h
      by_cases hb : (c0 :: rest).take 2 = ['\r', '\n']
      · obtain ⟨hc0, hh⟩ := (take_two_eq_crlf_iff c0 rest).mp hb
        cases rest with
        | nil => simp at hh
        | cons b t =>
          have hbn : b = '\n' := by simpa using hh
          subst hc0
          subst hbn
          rw [splitCRLF_break] at hp
          rcases List.mem_cons.mp hp with h1 | h2
          · subst h1; simp at hc
          · have hm := ih t (by simp at h; omega) p h2 c hc
            exact List.mem_cons_of_mem _ (List.mem_cons_of_mem _ hm)
      · obtain ⟨s0, ss0, hs0⟩ := List.exists_cons_of_ne_nil (splitCRLF_ne_nil rest)
        rw [splitCRLF_cons_eq c0 rest s0 ss0 hb hs0] at hp
        rcases List.mem_cons.mp hp with h1 | h2
        · subst h1
          rcases List.mem_cons.mp hc with rfl | hc2
          · exact List.mem_cons_self _ _
          · exact List.mem_cons_of_mem _
              (ih rest (by omega) s0 (by rw [hs0]; exact List.mem_cons_self _ _) c hc2)
        · exact List.mem_cons_of_mem _
            (ih rest (by omega) p (by rw [hs0]; exact List.mem_cons_of_mem _ h2) c hc)

theorem foldOneAux_sub : ∀ fuel (cur : List Char), ∀ p ∈ foldOneAux fuel cur,
    ∀ c ∈ p, c ∈ cur ∨ c = ' ' := by
  intro fuel
  induction fuel with
  | zero =>
    intro cur p hp c hc
    have he : p ∈ [cur] := hp
    simp at he
    subst he
    exact Or.inl hc
  | succ k ih =>
    intro cur p hp c hc
    by_cases h : utf8Len cur > 75
    · simp only [foldOneAux, if_pos h] at hp
      rcases List.mem_cons.mp hp with h1 | h2
      · subst h1
        exact Or.inl (List.take_subset _ _ hc)
      · rcases ih (' ' :: cur.drop (findCut cur 75)) p h2 c hc with h3 | h3
        · rcases List.mem_cons.mp h3 with rfl | h4
          · exact Or.inr rfl
          · exact Or.inl (List.drop_subset _ _ h4)
        · exact Or.inr h3
    · simp only [foldOneAux, if_neg h] at hp
      simp at hp
      subst hp
      exact Or.inl hc

theorem joinCRLF_mem : ∀ (ps : List (List Char)) (c : Char), c ∈ joinCRLF ps →
    (∃ p ∈ ps, c ∈ p) ∨ c = '\r' ∨ c = '\n' := by
  intro ps
  induction ps with
  | nil => intro c hc; simp [joinCRLF] at hc
  | cons p ps2 ih =>
    intro c hc
    cases ps2 with
    | nil => exact Or.inl ⟨p, by simp, hc⟩
    | cons q qs =>
      rw [joinCRLF_cons p (q :: qs) (by simp)] at hc
      rcases List.mem_append.mp hc with h1 | h2
      · exact Or.inl ⟨p, by simp, h1⟩
      · rcases List.mem_cons.mp h2 with rfl | h3
        · exact Or.inr (Or.inl rfl)
        · rcases List.mem_cons.mp h3 with rfl | h4
          · exact Or.inr (Or.inr rfl)
          · rcases ih c h4 with ⟨p2, hp2, hc2⟩ | h5
            · exact Or.inl ⟨p2, List.mem_cons_of_mem _ hp2, hc2⟩
            · exact Or.inr h5

theorem foldLinesL_mem (l : List Char) (c : Char) (h : c ∈ foldLinesL l) :
    c ∈ l ∨ c = ' ' ∨ c = '\r' ∨ c = '\n' := by
  rcases joinCRLF_mem _ c h with ⟨p, hp, hc⟩ | h2 | h2
  · obtain ⟨grp, hgrp, hpin⟩ := List.mem_flatten.mp hp
    obtain ⟨line, hline, rfl⟩ := List.mem_map.mp hgrp
    rcases foldOneAux_sub line.length line p hpin c hc with h1 | h1
    · exact Or.inl (splitCRLF_sub l.length l (le_refl _) line hline c h1)
    · exact Or.inr (Or.inl h1)
  · exact Or.inr (Or.inr (Or.inl h2))
  · exact Or.inr (Or.inr (Or.inr h2))

theorem foldLinesL_bmp (cl : List Char) (hb : ∀ c ∈ cl, c.toNat < 65536) :
    ∀ c ∈ foldLinesL cl, c.toNat < 65536 := by
  intro c hc
  rcases foldLinesL_mem cl c hc with h | h | h | h
  · exact hb c h
  · subst h; decide
  · subst h; decide
  · subst h; decide

/-- On BMP text the faithful code-unit fold computes exactly the
code-point fold. -/
theorem foldLinesU_encU (cl : List Char) (hb : ∀ c ∈ cl, c.toNat < 65536) :
    foldLinesU (encU cl) = encU (foldLinesL cl) := by
  have hsplit : splitCRLFU (encU cl) = (splitCRLF cl).map encU := by
    show splitCRLFAuxU (encU cl).length (encU cl) = (splitCRLF cl).map encU
    rw [encU_length]
    exact splitCRLFAuxU_encU cl.length cl
  have hmap : ((splitCRLF cl).map encU).map foldOneU
      = ((splitCRLF cl).map foldOne).map (List.map encU) := by
    rw [List.map_map, List.map_map]
    apply List.map_congr_left
    intro line hline
    have hbl : ∀ c ∈ line, c.toNat < 65536 :=
      fun c hc => hb c (splitCRLF_sub cl.length cl (le_refl _) line hline c hc)
    show foldOneU (encU line) = (foldOne line).map encU
    show foldOneAuxU (encU line).length (encU line) = (foldOne line).map encU
    rw [encU_length]
    exact foldOneAuxU_encU line.length line hbl
  show joinCRLFU ((splitCRLFU (encU cl)).map foldOneU).flatten
    = encU (joinCRLF ((splitCRLF cl).map foldOne).flatten)
  rw [hsplit, hmap, ← List.map_flatten]
  exact joinCRLFU_encU _

theorem splitCRLFU_encU (cl : List Char) :
    splitCRLFU (encU cl) = (splitCRLF cl).map encU := by
  show splitCRLFAuxU (encU cl).length (encU cl) = (splitCRLF cl).map encU
  rw [encU_length]
  exact splitCRLFAuxU_encU cl.length cl

theorem foldOneU_encU (cl : List Char) (hb : ∀ c ∈ cl, c.toNat < 65536) :
    foldOneU (encU cl) = (foldOne cl).map encU := by
  show foldOneAuxU (encU cl).length (encU cl) = (foldOne cl).map encU
  rw [encU_length]
  exact foldOneAuxU_encU cl.length cl hb

theorem unfoldIcsU_encU (cl : List Char) :
    unfoldIcsU (encU cl) = encU (unfoldIcs cl) := by
  show unfoldAuxU (encU cl).length (encU cl) = encU (unfoldIcs cl)
  rw [encU_length]
  exact unfoldAuxU_encU cl.length cl

/- ===== Lemmas: stable sort and Map operations ===== -/

theorem stInsert_perm (le : α → α → Bool) (x : α) (l : List α) :
    List.Perm (stInsert le x l) (x :: l) := by
  induction l with
  | nil => exact List.Perm.refl _
  | cons y ys ih =>
    simp only [stInsert]
    by_cases h : le x y = true
    · rw [if_pos h]
    · rw [if_neg h]
      exact (List.Perm.cons y ih).trans (List.Perm.swap x y ys)

theorem jsSort_perm (le : α → α → Bool) (l : List α) :
    List.Perm (jsSort le l) l := by
  induction l with
  | nil => exact List.Perm.refl _
  | cons x xs ih =>
    exact (stInsert_perm le x (jsSort le xs)).trans (List.Perm.cons x ih)

theorem stInsert_pairwise (le : α → α → Bool)
    (htot : ∀ a b, le a b = true ∨ le b a = true)
    (htrans : ∀ a b c, le a b = true → le b c = true → le a c = true)
    (x : α) (l : List α) (hl : l.Pairwise (fun a b => le a b = true)) :
    (stInsert le x l).Pairwise (fun a b => le a b = true) := by
  induction l with
  | nil => simp [stInsert]
  | cons y ys ih =>
    simp only [stInsert]
    rcases List.pairwise_cons.mp hl with ⟨hy, hys⟩
    by_cases h : le x y = true
    · rw [if_pos h]
      refine List.pairwise_cons.mpr ⟨?_, hl⟩
      intro b hb
      rcases List.mem_cons.mp hb with rfl | hb2
      · exact h
      · exact htrans x y b h (hy b hb2)
    · rw [if_neg h]
      refine List.pairwise_cons.mpr ⟨?_, ih hys⟩
      intro b hb
      have hmem := (stInsert_perm le x ys).mem_iff.mp hb
      rcases List.mem_cons.mp hmem with rfl | hb2
      · rcases htot y b with hh | hh
        · exact hh
        · exact absurd hh h
      · exact hy b hb2

theorem jsSort_pairwise (le : α → α → Bool)
    (htot : ∀ a b, le a b = true ∨ le b a = true)
    (htrans : ∀ a b c, le a b = true → le b c = true → le a c = true)
    (l : List α) :
    (jsSort le l).Pairwise (fun a b => le a b = true) := by
  induction l with
  | nil => simp [jsSort]
  | cons x xs ih => exact stInsert_pairwise le htot htrans x _ ih

theorem jsSort_head_min (le : α → α → Bool)
    (htot : ∀ a b, le a b = true ∨ le b a = true)
    (htrans : ∀ a b c, le a b = true → le b c = true → le a c = true)
    (l : List α) (x : α) (rest : List α) (h : jsSort le l = x :: rest) :
    ∀ y ∈ l, le x y = true := by
  have hp := jsSort_pairwise le htot htrans l
  rw [h] at hp
  obtain ⟨hx, -⟩ := List.pairwise_cons.mp hp
  intro y hy
  have hmem : y ∈ jsSort le l := (jsSort_perm le l).mem_iff.mpr hy
  rw [h] at hmem
  rcases List.mem_cons.mp hmem with rfl | h2
  · rcases htot y y with hh | hh <;> exact hh
  · exact hx y h2

theorem jsSort_head_mem (le : α → α → Bool) (l : List α) (x : α) (rest : List α)
    (h : jsSort le l = x :: rest) : x ∈ l := by
  have : x ∈ jsSort le l := by rw [h]; exact List.mem_cons_self _ _
  exact (jsSort_perm le l).mem_iff.mp this

theorem length_mapSet [DecidableEq κ] (m : List (κ × α)) (k : κ) (v : α) :
    (mapSet m k v).length = m.length ∨ (mapSet m k v).length = m.length + 1 := by
  induction m with
  | nil => right; rfl
  | cons p rest ih =>
    obtain ⟨k0, v0⟩ := p
    simp only [mapSet]
    by_cases h : k0 = k
    · rw [if_pos h]; left; simp
    · rw [if_neg h]
      rcases ih with h1 | h1
      · left; simp [h1]
      · right; simp [h1]

theorem length_mapDelete_mem [DecidableEq κ] (m : List (κ × α)) (k : κ)
    (h : ∃ v, (k, v) ∈ m) : (mapDelete m k).length + 1 = m.length := by
  induction m with
  | nil => obtain ⟨v, hv⟩ := h; simp at hv
  | cons p rest ih =>
    obtain ⟨k0, v0⟩ := p
    simp only [mapDelete]
    by_cases hk : k0 = k
    · rw [if_pos hk]; simp
    · rw [if_neg hk]
      obtain ⟨v, hv⟩ := h
      rcases List.mem_cons.mp hv with he | hm
      · exact absurd (congrArg Prod.fst he).symm hk
      · simp only [List.length_cons]
        rw [← ih ⟨v, hm⟩]

theorem mapLookup_mapSet_self [DecidableEq κ] (m : List (κ × α)) (k : κ) (v : α) :
    mapLookup (mapSet m k v) k = some v := by
  induction m with
  | nil => simp [mapSet, mapLookup, List.find?]
  | cons p rest ih =>
    obtain ⟨k0, v0⟩ := p
    simp only [mapSet]
    by_cases h : k0 = k
    · rw [if_pos h]
      simp [mapLookup, List.find?]
    · rw [if_neg h]
      simp only [mapLookup, List.find?_cons]
      have hd : decide (k0 = k) = false := by simpa using h
      rw [hd]
      exact ih

/- ===== Small helper lemmas for the claim theorems ===== -/

theorem sTruthy_jsOrS (a b : Option String) :
    sTruthy (jsOrS a b) = (sTruthy a || sTruthy b) := by
  by_cases h : sTruthy a = true
  · simp [jsOrS, h]
  · have hf : sTruthy a = false := by simpa using h
    simp [jsOrS, hf]

theorem oLt_self_false (x : Option Int) : oLt x x = false := by
  cases x <;> simp [oLt]

/-- Shared fact: when neither the job nor the operation supplies an end,
`mapJobToEvent` leaves `end = start` (the `|| start` fallback; the
`+1 day` branch is unreachable). -/
theorem mapJobToEvent_end_eq_start (job : Job) (op : Option Operation)
    (itm : Option ItemToMake)
    (hje : sTruthy (jobEffEnd job) = false)
    (hoe : sTruthy (opEffEndOpt op) = false) :
    (mapJobToEvent job op itm).end_ = (mapJobToEvent job op itm).start := by
  simp only [mapJobToEvent]
  rw [show jsOrS (jobEffEnd job)
      (jsOrS (opEffEndOpt op) (jsOrS (jobEffStart job) (opEffStartOpt op)))
      = jsOrS (jobEffStart job) (opEffStartOpt op) by
    simp [jsOrS, hje, hoe]]
  cases hs : sTruthy (jsOrS (jobEffStart job) (opEffStartOpt op)) <;> simp [hs]

/- ===== C1 ===== -/

/-- C1 (amended): the Event Mapper prefers the JOB effective start
(scheduled-start → original-scheduled-start → production-due-date); only
when the job supplies none of these does it fall back to the selected
operation's effective start. -/
theorem mapJobToEvent_start_priority (job : Job) (op : Option Operation)
    (itm : Option ItemToMake) :
    (sTruthy (jobEffStart job) = true →
      (mapJobToEvent job op itm).start = jobEffStart job) ∧
    (sTruthy (jobEffStart job) = false →
      (mapJobToEvent job op itm).start = opEffStartOpt op) := by
  constructor
  · intro h
    simp [mapJobToEvent, jsOrS, h]
  · intro h
    simp [mapJobToEvent, jsOrS, h]

/-- C1 witness: with a job start present the event start is the job's;
with no job start it is the operation's. -/
theorem mapJobToEvent_start_priority_witness :
    (mapJobToEvent { scheduledStartUtc := some "2024-01-01T00:00:00Z" }
        (some { scheduledStartUtc := some "2024-03-03T00:00:00Z" }) none).start
      = jobEffStart { scheduledStartUtc := some "2024-01-01T00:00:00Z" } ∧
    (mapJobToEvent { }
        (some { scheduledStartUtc := some "2024-03-03T00:00:00Z" }) none).start
      = opEffStartOpt (some { scheduledStartUtc := some "2024-03-03T00:00:00Z" }) :=
  ⟨(mapJobToEvent_start_priority _ _ _).1 (by decide),
   (mapJobToEvent_start_priority _ _ _).2 (by decide)⟩

/-- C1 counterexample: a job with scheduled start 2024-01-01 and a primary
operation with scheduled start 2024-03-03 yields the JOB start, not the
operation's start as C1 claims. -/
theorem mapJobToEvent_start_not_op_first :
    (mapJobToEvent { scheduledStartUtc := some "2024-01-01T00:00:00Z" }
        (some { scheduledStartUtc := some "2024-03-03T00:00:00Z" }) none).start
      = some "2024-01-01T00:00:00Z" ∧
    (mapJobToEvent { scheduledStartUtc := some "2024-01-01T00:00:00Z" }
        (some { scheduledStartUtc := some "2024-03-03T00:00:00Z" }) none).start
      ≠ opEffStartOpt (some { scheduledStartUtc := some "2024-03-03T00:00:00Z" }) :=
  ⟨by decide, by decide⟩

/- ===== C2 ===== -/

/-- C2 (amended): when the derived start is defined but neither the
primary operation nor the job supplies an end, the Event Mapper sets
`end = start` — in BOTH feed modes; no 30-minute or 1-day offset is
added (the `+1 day` "safety" branch is dead code). -/
theorem mapJobToEvent_end_synthesis (job : Job) (op : Option Operation)
    (itm : Option ItemToMake)
    (hje : sTruthy (jobEffEnd job) = false)
    (hoe : sTruthy (opEffEndOpt op) = false) :
    (mapJobToEvent job op itm).end_ = (mapJobToEvent job op itm).start :=
  mapJobToEvent_end_eq_start job op itm hje hoe

/-- C2 witness: a job with only a scheduled start gets `end = start`. -/
theorem mapJobToEvent_end_synthesis_witness :
    (mapJobToEvent { scheduledStartUtc := some "2024-06-01T10:00:00Z" } none none).end_
      = (mapJobToEvent { scheduledStartUtc := some "2024-06-01T10:00:00Z" } none none).start :=
  mapJobToEvent_end_synthesis _ none none (by decide) (by decide)

/-- C2 counterexample: for a job with only a start, the synthesized end
equals the start and is NOT start + 30 minutes (timed-mode claim) nor
start + 1 day (all-day-mode claim). -/
theorem mapJobToEvent_end_not_offset :
    (mapJobToEvent { scheduledStartUtc := some "2024-06-01T10:00:00Z" } none none).end_
      = some "2024-06-01T10:00:00Z" ∧
    jsDateMs (mapJobToEvent { scheduledStartUtc := some "2024-06-01T10:00:00Z" } none none).end_
      ≠ (jsDateMs (some "2024-06-01T10:00:00Z")).map (fun t => t + 30 * 60 * 1000) ∧
    jsDateMs (mapJobToEvent { scheduledStartUtc := some "2024-06-01T10:00:00Z" } none none).end_
      ≠ (jsDateMs (some "2024-06-01T10:00:00Z")).map (fun t => t + 86400000) :=
  ⟨by decide, by decide, by decide⟩

/- ===== C4 ===== -/

/-- C4 (amended): the fallback synthesis itself preserves `end ≥ start`
(it sets `end = start`); when an explicit end is supplied by the job or
operation, `end ≥ start` is NOT enforced (see the counterexample). -/
theorem rendered_end_ge_start_when_synthesized (job : Job) (op : Option Operation)
    (itm : Option ItemToMake)
    (hje : sTruthy (jobEffEnd job) = false)
    (hoe : sTruthy (opEffEndOpt op) = false) :
    (mapJobToEvent job op itm).end_ = (mapJobToEvent job op itm).start ∧
    oLt (jsDateMs (mapJobToEvent job op itm).end_)
        (jsDateMs (mapJobToEvent job op itm).start) = false := by
  have he := mapJobToEvent_end_eq_start job op itm hje hoe
  exact ⟨he, by rw [he]; exact oLt_self_false _⟩

/-- C4 witness. -/
theorem rendered_end_ge_start_when_synthesized_witness :
    (mapJobToEvent { productionDueDate := some "2024-02-02T00:00:00Z" } none none).end_
      = (mapJobToEvent { productionDueDate := some "2024-02-02T00:00:00Z" } none none).start ∧
    oLt (jsDateMs (mapJobToEvent { productionDueDate := some "2024-02-02T00:00:00Z" } none none).end_)
        (jsDateMs (mapJobToEvent { productionDueDate := some "2024-02-02T00:00:00Z" } none none).start) = false :=
  rendered_end_ge_start_when_synthesized _ none none (by decide) (by decide)

/-- C4 counterexample: a job with only a scheduled END of 2024-01-01 and a
primary operation starting 2024-06-01 yields a rendered event whose end
(2024-01-01) is strictly BEFORE its start (2024-06-01), both defined. -/
theorem rendered_end_lt_start_example :
    oLt (jsDateMs (mapJobToEvent { scheduledEndUtc := some "2024-01-01T00:00:00Z" }
          (some { scheduledStartUtc := some "2024-06-01T00:00:00Z" }) none).end_)
        (jsDateMs (mapJobToEvent { scheduledEndUtc := some "2024-01-01T00:00:00Z" }
          (some { scheduledStartUtc := some "2024-06-01T00:00:00Z" }) none).start) = true := by
  decide

/- ===== C3 ===== -/

/-- C3 (amended): for the scenario job with no operations in timed mode,
the rendered event has `DTSTART:20240601T100000Z` and
`DTEND:20240601T110000Z` as claimed, but its summary is
`"Job #7 #7"` (the title already falls back to `Job #7` and the
`#number` segment is still appended), not `"Job #7"`. -/
theorem c3_scenario_rendered (uid : String) (nowMs : Int) :
    (mapJobToEvent c3job none none).summary = "Job #7 #7" ∧
    veventTimedLines uid (mapJobToEvent c3job none none).start
        (mapJobToEvent c3job none none).end_
        (mapJobToEvent c3job none none).summary
        (mapJobToEvent c3job none none).location
        (mapJobToEvent c3job none none).description
        (mapJobToEvent c3job none none).categories nowMs
      = ["BEGIN:VEVENT", "UID:" ++ uid, "DTSTAMP:" ++ toUTCms nowMs,
         "DTSTART:20240601T100000Z", "DTEND:20240601T110000Z",
         "SUMMARY:Job #7 #7", "DESCRIPTION:Status: scheduled\\nJob ID: J1",
         "CATEGORIES:scheduled", "END:VEVENT"] :=
  ⟨by decide, rfl⟩

/-- C3 counterexample: the summary for the scenario job is
`"Job #7 #7"`, not exactly `"Job #7"`. -/
theorem c3_summary_not_as_claimed :
    (mapJobToEvent c3job none none).summary ≠ "Job #7" ∧
    (mapJobToEvent c3job none none).summary = "Job #7 #7" :=
  ⟨by decide, by decide⟩

/- ===== C5 ===== -/

/-- C5: over the faithful UTF-16 code-unit model of `foldLines`, for any
input whose units are Unicode scalar values in the BMP (no surrogates, as
in every document this serializer assembles) and none of whose lines
begins with a space, folding yields output lines of at most 75 UTF-8
octets, prefixes every continuation line with a single space (keeping
every UTF-8 character sequence intact), and unfolding (removing every
CRLF-space break) reconstructs the input exactly. -/
theorem foldLinesU_spec (l : List Nat)
    (hscalar : ∀ u ∈ l, u < 55296 ∨ (57343 < u ∧ u < 65536))
    (hsp : ∀ line ∈ splitCRLFU l, line.head? ≠ some 32) :
    (∀ out ∈ splitCRLFU (foldLinesU l), utf8LenU out ≤ 75) ∧
    (∀ line ∈ splitCRLFU l, ∀ p ∈ (foldOneU line).tail, p.head? = some 32) ∧
    unfoldIcsU (foldLinesU l) = l := by
  have hval : ∀ u ∈ l, Nat.isValidChar u := by
    intro u hu
    rcases hscalar u hu with h | h
    · exact Or.inl h
    · exact Or.inr ⟨h.1, by omega⟩
  have hl : encU (l.map Char.ofNat) = l := by
    show (l.map Char.ofNat).map Char.toNat = l
    rw [List.map_map]
    have hcong : ∀ u ∈ l, (Char.toNat ∘ Char.ofNat) u = id u := by
      intro u hu
      show (Char.ofNat u).toNat = u
      exact char_toNat_ofNat u (hval u hu)
    rw [List.map_congr_left hcong, List.map_id]
  have hb : ∀ c ∈ l.map Char.ofNat, c.toNat < 65536 := by
    intro c hc
    obtain ⟨u, hu, rfl⟩ := List.mem_map.mp hc
    rw [char_toNat_ofNat u (hval u hu)]
    rcases hscalar u hu with h | h
    · omega
    · exact h.2
  have hsplit_l : splitCRLFU l = (splitCRLF (l.map Char.ofNat)).map encU := by
    conv_lhs => rw [← hl]
    exact splitCRLFU_encU _
  have hsp' : ∀ line ∈ splitCRLF (l.map Char.ofNat), line.head? ≠ some ' ' := by
    intro line hline hcontra
    apply hsp (encU line) (by rw [hsplit_l]; exact List.mem_map_of_mem _ hline)
    rw [encU_head?, hcontra]
    rfl
  have hmain := foldLinesL_spec (l.map Char.ofNat) hsp'
  have hfold : foldLinesU l = encU (foldLinesL (l.map Char.ofNat)) := by
    conv_lhs => rw [← hl]
    exact foldLinesU_encU _ hb
  refine ⟨?_, ?_, ?_⟩
  · intro out hout
    rw [hfold, splitCRLFU_encU] at hout
    obtain ⟨p, hp, rfl⟩ := List.mem_map.mp hout
    have hbp : ∀ c ∈ p, c.toNat < 65536 := by
      intro c hc
      exact foldLinesL_bmp _ hb c
        (splitCRLF_sub (foldLinesL (l.map Char.ofNat)).length _ (le_refl _) p hp c hc)
    rw [utf8LenU_encU p hbp]
    exact hmain.1 p hp
  · intro line hline p hp
    rw [hsplit_l] at hline
    obtain ⟨cline, hcline, rfl⟩ := List.mem_map.mp hline
    have hbl : ∀ c ∈ cline, c.toNat < 65536 := fun c hc =>
      hb c (splitCRLF_sub (l.map Char.ofNat).length _ (le_refl _) cline hcline c hc)
    rw [foldOneU_encU cline hbl, ← List.map_tail] at hp
    obtain ⟨q, hq, rfl⟩ := List.mem_map.mp hp
    rw [encU_head?, hmain.2.1 cline hcline q hq]
    rfl
  · rw [hfold, unfoldIcsU_encU, hmain.2.2]
    exact hl

/-- C5 witness: the guarantees hold on a concrete all-BMP document with a
line longer than 75 octets. -/
theorem foldLinesU_spec_witness :
    (∀ out ∈ splitCRLFU (foldLinesU c5docU), utf8LenU out ≤ 75) ∧
    (∀ line ∈ splitCRLFU c5docU, ∀ p ∈ (foldOneU line).tail, p.head? = some 32) ∧
    unfoldIcsU (foldLinesU c5docU) = c5docU :=
  foldLinesU_spec c5docU (by decide) (by decide)

/-- C5 counterexample: the two universal readings of the claim fail on
the program itself.  (a) On a line of 19 astral emoji (38 UTF-16 units,
76 UTF-8 octets) the fold cuts at unit index 37, splitting a surrogate
pair: the first output line ends in the lone high surrogate 0xD835 and
the continuation resumes with the lone low surrogate after the space, so
a split does NOT keep every character intact.  (b) Unfolding is not the
inverse of folding for every input: a document that already contains a
CRLF-space sequence is left unchanged by folding, and unfolding then
deletes the break. -/
theorem foldLines_splits_surrogate_pair :
    utf8LenU emoji19 = 76 ∧
    ((splitCRLFU (foldLinesU emoji19)).headD []).getLastD 0 = 55357 ∧
    u16IsHigh 55357 = true ∧
    ((splitCRLFU (foldLinesU emoji19)).getD 1 []).take 2 = [32, 56832] ∧
    u16IsLow 56832 = true ∧
    unfoldIcsU (foldLinesU [65, 13, 10, 32, 66]) ≠ [65, 13, 10, 32, 66] := by
  decide

/- ===== C6 ===== -/

/-- C6: a job for which neither the primary operation nor the job itself
carries any start timestamp fails the window filter and therefore never
reaches the rendered feed; the filter is a total function, so no error is
raised for it. -/
theorem job_without_start_excluded (pm : Job → Option OpPair) (j : Job)
    (ws we : Option Int)
    (h1 : sTruthy (opFieldS ((pm j).map (fun p => p.op)) (fun o => o.scheduledStartUtc)) = false)
    (h2 : sTruthy (opFieldS ((pm j).map (fun p => p.op)) (fun o => o.originalScheduledStartUtc)) = false)
    (h3 : sTruthy j.scheduledStartUtc = false)
    (h4 : sTruthy j.originalScheduledStartUtc = false)
    (h5 : sTruthy j.productionDueDate = false) :
    jobIncluded (pm j) j ws we = false ∧
    ∀ jobs : List Job, j ∉ jobs.filter (fun x => jobIncluded (pm x) x ws we) := by
  have hstart : jobIncluded (pm j) j ws we = false := by
    have hs : sTruthy (jsOrS (opFieldS ((pm j).map (fun p => p.op)) (fun o => o.scheduledStartUtc))
        (jsOrS (opFieldS ((pm j).map (fun p => p.op)) (fun o => o.originalScheduledStartUtc))
          (jsOrS j.scheduledStartUtc (jsOrS j.originalScheduledStartUtc j.productionDueDate)))) = false := by
      simp [sTruthy_jsOrS, h1, h2, h3, h4, h5]
    simp [jobIncluded, hs]
  refine ⟨hstart, ?_⟩
  intro jobs hmem
  rw [List.mem_filter] at hmem
  rw [hstart] at hmem
  exact absurd hmem.2 (by simp)

/-- C6 witness: a concrete date-less job is excluded. -/
theorem job_without_start_excluded_witness :
    jobIncluded none { status := some "scheduled" } none none = false ∧
    ({ status := some "scheduled" } : Job)
      ∉ [({ status := some "scheduled" } : Job)].filter
          (fun x => jobIncluded none x none none) :=
  ⟨(job_without_start_excluded (fun _ => none) { status := some "scheduled" } none none
      (by decide) (by decide) (by decide) (by decide) (by decide)).1,
   (job_without_start_excluded (fun _ => none) { status := some "scheduled" } none none
      (by decide) (by decide) (by decide) (by decide) (by decide)).2
     [{ status := some "scheduled" }]⟩

/- ===== C7 ===== -/

/-- C7: when the per-job operation-listing fetch fails (and the cache is
empty for that job), the worker records a null pair, and the job — if it
passes the window filter on job-level fields — is still mapped into the
feed with no primary operation and no item.  The whole pipeline is a
total function: the failure never propagates. -/
theorem enrichment_failure_recovered (err : String) (job : Job)
    (jobs : List Job) (pm : Job → Option OpPair) (ws we : Option Int)
    (hpm : pm job = workerStep none (Except.error err) job)
    (hmem : job ∈ jobs)
    (hinc : jobIncluded (pm job) job ws we = true) :
    workerStep none (Except.error err) job = none ∧
    mapJobToEvent job none none ∈ buildEvents jobs pm ws we := by
  refine ⟨rfl, ?_⟩
  have hpm0 : pm job = none := hpm
  have hfil : job ∈ jobs.filter (fun j => jobIncluded (pm j) j ws we) :=
    List.mem_filter.mpr ⟨hmem, hinc⟩
  have hm := List.mem_map_of_mem
    (fun j => mapJobToEvent j ((pm j).map (fun p => p.op)) ((pm j).bind (fun p => p.itm))) hfil
  simpa [buildEvents, hpm0] using hm

/-- C7 witness: a concrete job whose fetch throws still shows up,
mapped from job-level fields only. -/
theorem enrichment_failure_recovered_witness :
    workerStep none (Except.error "boom") { scheduledStartUtc := some "2024-06-01T10:00:00Z" } = none ∧
    mapJobToEvent { scheduledStartUtc := some "2024-06-01T10:00:00Z" } none none
      ∈ buildEvents [{ scheduledStartUtc := some "2024-06-01T10:00:00Z" }] (fun _ => none) none none :=
  enrichment_failure_recovered "boom" { scheduledStartUtc := some "2024-06-01T10:00:00Z" }
    [{ scheduledStartUtc := some "2024-06-01T10:00:00Z" }] (fun _ => none) none none
    rfl (by simp) (by decide)

/- ===== C8 ===== -/

/-- C8 (amended): if a request is a cache miss (no fresh entry), renders
and stores its response, then ANY second request for the same URL with no
conditional header arriving within one TTL of that render gets the
byte-identical body and the identical ETag straight from the cache. -/
theorem response_cached_within_ttl
    (cache : List (String × CacheEntry)) (key : String) (t1 t2 ttl : Int)
    (jobs : List Job) (pm : Job → Option OpPair) (allDay : Bool)
    (ws we : Option Int) (hash : String → String)
    (body etag : String) (cache2 : List (String × CacheEntry))
    (hmiss : freshHit cache key t1 ttl = none)
    (hfirst : handleCalendar cache key none t1 ttl jobs pm allDay ws we hash
      = (HttpResponse.ok body etag, cache2))
    (hlt : t2 - t1 < ttl * 1000) :
    handleCalendar cache2 key none t2 ttl jobs pm allDay ws we hash
      = (HttpResponse.ok body etag, cache2) := by
  cases hr : renderFeed jobs pm allDay ws we t1 hash with
  | none =>
    have hstep : handleCalendar cache key none t1 ttl jobs pm allDay ws we hash
        = (HttpResponse.serverError, cache) := by
      simp only [handleCalendar, hmiss, hr]
    rw [hstep] at hfirst
    exact absurd hfirst (by simp)
  | some b =>
    have hstep : handleCalendar cache key none t1 ttl jobs pm allDay ws we hash
        = (HttpResponse.ok b ("W/\"" ++ hash b ++ "\""),
           mapSet cache key (CacheEntry.mk t1 b ("W/\"" ++ hash b ++ "\""))) := by
      simp only [handleCalendar, hmiss, hr]
    rw [hstep] at hfirst
    have hA : HttpResponse.ok b ("W/\"" ++ hash b ++ "\"") = HttpResponse.ok body etag :=
      congrArg Prod.fst hfirst
    have hB : mapSet cache key (CacheEntry.mk t1 b ("W/\"" ++ hash b ++ "\"")) = cache2 :=
      congrArg Prod.snd hfirst
    injection hA with hb he
    subst hb
    subst he
    subst hB
    have hlook := mapLookup_mapSet_self cache key
      (CacheEntry.mk t1 b ("W/\"" ++ hash b ++ "\""))
    simp only [handleCalendar, freshHit, hlook]
    rw [if_pos (show t2 - (CacheEntry.mk t1 b ("W/\"" ++ hash b ++ "\"")).atMs < ttl * 1000 from hlt)]
    simp [sTruthy]

/-- C8 witness: a concrete miss-then-hit pair of requests. -/
theorem response_cached_within_ttl_witness :
    handleCalendar [("k", CacheEntry.mk 0 c8body "W/\"h\"")] "k" none 1000 60
        [] (fun _ => none) true none none (fun _ => "h")
      = (HttpResponse.ok c8body "W/\"h\"", [("k", CacheEntry.mk 0 c8body "W/\"h\"")]) :=
  response_cached_within_ttl [] "k" 0 1000 60 [] (fun _ => none) true none none
    (fun _ => "h") c8body "W/\"h\"" [("k", CacheEntry.mk 0 c8body "W/\"h\"")]
    (by decide) (by decide) (by decide)

/-- C8 counterexample: two requests 2 seconds apart (well inside one
60-second TTL of each other), same URL, same upstream job set, yet the
second body differs from the first: the cache entry they straddle was
written 59 s resp. 61 s earlier, so the second request re-renders and the
DTSTAMP (render time) changes.  Byte-identity is therefore NOT guaranteed
for requests merely "within one TTL of each other". -/
theorem responses_within_ttl_can_differ :
    (let hash : String → String := fun _ => ""
     let jobs : List Job := [{ id := some "J", scheduledStartUtc := some "2024-06-01T10:00:00Z" }]
     let pm : Job → Option OpPair := fun _ => none
     let c1 := (handleCalendar [] "k" none 0 60 jobs pm true none none hash).2
     let r1 := handleCalendar c1 "k" none 59000 60 jobs pm true none none hash
     let r2 := handleCalendar r1.2 "k" none 61000 60 jobs pm true none none hash
     61000 - 59000 < 60 * 1000 ∧ r1.1 ≠ r2.1) := by
  decide

/- ===== C9 ===== -/

/-- C9: `cachePutOps` keeps the operation cache at no more than 500
entries (given it was within the bound before the call), and when the
insertion pushes the size past 500 it evicts exactly one entry — one
whose stored insertion timestamp is minimal over the whole cache. -/
theorem cachePutOps_bounded (m : List (String × OpsCacheEntry)) (jobId : String)
    (data : List OpsEntry) (nowMs : Int) (hsize : m.length ≤ 500) :
    (cachePutOps m jobId data nowMs).length ≤ 500 ∧
    ((mapSet m jobId (OpsCacheEntry.mk nowMs data)).length > 500 →
      ∃ oldest rest,
        jsSort opsEntryLe (mapSet m jobId (OpsCacheEntry.mk nowMs data)) = oldest :: rest ∧
        oldest ∈ mapSet m jobId (OpsCacheEntry.mk nowMs data) ∧
        (∀ e ∈ mapSet m jobId (OpsCacheEntry.mk nowMs data), oldest.2.atMs ≤ e.2.atMs) ∧
        cachePutOps m jobId data nowMs
          = mapDelete (mapSet m jobId (OpsCacheEntry.mk nowMs data)) oldest.1 ∧
        (cachePutOps m jobId data nowMs).length + 1
          = (mapSet m jobId (OpsCacheEntry.mk nowMs data)).length) := by
  have hlen := length_mapSet m jobId (OpsCacheEntry.mk nowMs data)
  have htot : ∀ a b : String × OpsCacheEntry,
      opsEntryLe a b = true ∨ opsEntryLe b a = true := by
    intro a b
    simp only [opsEntryLe, decide_eq_true_eq]
    omega
  have htrans : ∀ a b c : String × OpsCacheEntry, opsEntryLe a b = true →
      opsEntryLe b c = true → opsEntryLe a c = true := by
    intro a b c
    simp only [opsEntryLe, decide_eq_true_eq]
    omega
  by_cases hover : (mapSet m jobId (OpsCacheEntry.mk nowMs data)).length > 500
  · have hne : jsSort opsEntryLe (mapSet m jobId (OpsCacheEntry.mk nowMs data)) ≠ [] := by
      intro hnil
      have hpl := (jsSort_perm opsEntryLe (mapSet m jobId (OpsCacheEntry.mk nowMs data))).length_eq
      rw [hnil] at hpl
      simp at hpl
      omega
    obtain ⟨oldest, rest, hsort⟩ := List.exists_cons_of_ne_nil hne
    have hmem : oldest ∈ mapSet m jobId (OpsCacheEntry.mk nowMs data) :=
      jsSort_head_mem _ _ _ _ hsort
    have hmin : ∀ e ∈ mapSet m jobId (OpsCacheEntry.mk nowMs data),
        oldest.2.atMs ≤ e.2.atMs := by
      intro e he
      have hle := jsSort_head_min opsEntryLe htot htrans _ oldest rest hsort e he
      simpa [opsEntryLe] using hle
    have heq : cachePutOps m jobId data nowMs
        = mapDelete (mapSet m jobId (OpsCacheEntry.mk nowMs data)) oldest.1 := by
      simp only [cachePutOps]
      rw [if_pos hover, hsort]
    have hdel : (mapDelete (mapSet m jobId (OpsCacheEntry.mk nowMs data)) oldest.1).length + 1
        = (mapSet m jobId (OpsCacheEntry.mk nowMs data)).length := by
      apply length_mapDelete_mem
      exact ⟨oldest.2, by rw [Prod.mk.eta]; exact hmem⟩
    refine ⟨?_, fun _ => ⟨oldest, rest, hsort, hmem, hmin, heq, ?_⟩⟩
    · rw [heq]; omega
    · rw [heq]; omega
  · have heq : cachePutOps m jobId data nowMs
        = mapSet m jobId (OpsCacheEntry.mk nowMs data) := by
      simp only [cachePutOps]
      rw [if_neg hover]
    exact ⟨by rw [heq]; omega, fun hc => absurd hc hover⟩

/-- C9 witness: inserting into an empty cache respects the bound. -/
theorem cachePutOps_bounded_witness :
    (cachePutOps [] "a" [] 5).length ≤ 500 ∧
    ((mapSet ([] : List (String × OpsCacheEntry)) "a" (OpsCacheEntry.mk 5 [])).length > 500 →
      ∃ oldest rest,
        jsSort opsEntryLe (mapSet ([] : List (String × OpsCacheEntry)) "a" (OpsCacheEntry.mk 5 [])) = oldest :: rest ∧
        oldest ∈ mapSet ([] : List (String × OpsCacheEntry)) "a" (OpsCacheEntry.mk 5 []) ∧
        (∀ e ∈ mapSet ([] : List (String × OpsCacheEntry)) "a" (OpsCacheEntry.mk 5 []), oldest.2.atMs ≤ e.2.atMs) ∧
        cachePutOps [] "a" [] 5
          = mapDelete (mapSet ([] : List (String × OpsCacheEntry)) "a" (OpsCacheEntry.mk 5 [])) oldest.1 ∧
        (cachePutOps [] "a" [] 5).length + 1
          = (mapSet ([] : List (String × OpsCacheEntry)) "a" (OpsCacheEntry.mk 5 [])).length) :=
  cachePutOps_bounded [] "a" [] 5 (by decide)

/- ===== C10 ===== -/

/-- C10: when the job's start-fallback chain resolves to the Unix epoch
(`getTime() = 0`) or to an unparseable date (`NaN`), `jStart` is falsy, so
`pickPrimaryOperation` skips overlap matching entirely and returns the
earliest sorted candidate (or none when no candidate has a start). -/
theorem pickPrimary_epoch_or_invalid (job : Job) (ops : List Operation)
    (h : jStartMs job = some 0 ∨ jStartMs job = none) :
    pickPrimaryOperation job ops = (sortCandidates ops).head? := by
  have hnt : numTruthy (jStartMs job) = false := by
    rcases h with h | h <;> simp [h, numTruthy]
  by_cases he : ops.isEmpty
  · have hn : ops = [] := by simpa using he
    subst hn
    rfl
  · simp only [pickPrimaryOperation]
    rw [if_neg he]
    cases hc : sortCandidates ops with
    | nil => simp
    | cons c0 cs => simp [hnt]

/-- C10 witness: a job whose only date is the production due date at the
exact Unix epoch falls back to the earliest operation. -/
theorem pickPrimary_epoch_or_invalid_witness :
    pickPrimaryOperation { productionDueDate := some "1970-01-01T00:00:00Z" }
      [{ id := some "b", scheduledStartUtc := some "2024-06-02T00:00:00Z" },
       { id := some "a", scheduledStartUtc := some "2024-06-01T00:00:00Z" }]
    = (sortCandidates
      [{ id := some "b", scheduledStartUtc := some "2024-06-02T00:00:00Z" },
       { id := some "a", scheduledStartUtc := some "2024-06-01T00:00:00Z" }]).head? :=
  pickPrimary_epoch_or_invalid _ _ (Or.inl (by decide))
